import Mathlib

/-!
# Verification of the gh-stats clone-based churn analysis core

Shallow embedding of the clone analyzer (`src/analyzers/clone.ts`) of the
gh-stats repository: strings are modelled as `List Char`, the JavaScript
`Record<string, number>` maps as insertion-ordered association lists, and
host primitives (`Number(...)`, `String.prototype.trim`, `split`,
`replace`, `replaceAll`, `Date.parse`) as executable Lean functions over
the fragment of their behaviour the analyzer exercises.  External effects
(git subprocesses, the linguist classifier) are modelled by explicit
oracle parameters.  Every definition follows the corresponding source
function; theorems at the end settle the specification claims.
-/

set_option maxHeartbeats 1000000

namespace GhStats

/-- Strings of the embedded program: JavaScript strings as lists of characters. -/
abbrev Str := List Char

/-! ## JavaScript string primitives -/

/-- JavaScript whitespace recognised by `String.prototype.trim` on the
ASCII fragment: space, tab, line feed, carriage return, vertical tab, form feed. -/
def jsWhitespace (c : Char) : Bool :=
  c = ' ' || c = '\t' || c = '\n' || c = '\r' || c = '\x0b' || c = '\x0c'

/-- `s.trim()`: remove leading and trailing whitespace. -/
def jsTrim (s : Str) : Str :=
  ((s.dropWhile jsWhitespace).reverse.dropWhile jsWhitespace).reverse

/-- Prepend a character onto the first piece of a split result
(helper for the `split` models). -/
def consHead (c : Char) : List Str → List Str
  | [] => [[c]]
  | h :: t => (c :: h) :: t

/-- `s.split(sep)` for a single-character separator (used with `"\t"`):
splits at every occurrence, keeping empty pieces. -/
def splitOnChar (sep : Char) : Str → List Str
  | [] => [[]]
  | c :: rest =>
    if c = sep then [] :: splitOnChar sep rest
    else consHead c (splitOnChar sep rest)

/-- `s.split(/\r?\n/)`: split at every `"\r\n"` or `"\n"`; a lone `'\r'`
is an ordinary character. -/
def splitLinesCh : Str → List Str
  | [] => [[]]
  | '\r' :: '\n' :: rest => [] :: splitLinesCh rest
  | '\n' :: rest => [] :: splitLinesCh rest
  | c :: rest => consHead c (splitLinesCh rest)

/-- `s.split("=>")`: split at every non-overlapping occurrence of `"=>"`,
scanning left to right. -/
def splitOnArrow : Str → List Str
  | [] => [[]]
  | '=' :: '>' :: rest => [] :: splitOnArrow rest
  | c :: rest => consHead c (splitOnArrow rest)

/-- Does `pat` occur at the start of `s`?  (Model of `String.prototype.startsWith`
and the anchored step of substring search.) -/
def startsWithStr : Str → Str → Bool
  | [], _ => true
  | _ :: _, [] => false
  | p :: ps, c :: cs => p = c && startsWithStr ps cs

/-- `s.includes(pat)`: substring containment, scanning left to right. -/
def containsStr (pat : Str) : Str → Bool
  | [] => startsWithStr pat []
  | c :: rest => startsWithStr pat (c :: rest) || containsStr pat rest

/-- `s.toLowerCase()` on the ASCII fragment. -/
def jsToLower (s : Str) : Str := s.map Char.toLower

/-! ## The host `Number(...)` conversion

Models `Number(string)` on the fragment the numstat parser exercises:
surrounding whitespace is ignored, the empty string converts to `0`, an
optional sign followed by decimal digits converts to the corresponding
integer, and every other form (including `"-"` emitted by git for binary
files) is NaN, modelled as `none`. -/

/-- Value of a nonempty all-digit string, `none` otherwise. -/
def decDigits? (s : Str) : Option Int :=
  if s = [] then none
  else if s.all (·.isDigit) then
    some (s.foldl (fun acc c => acc * 10 + (c.toNat - '0'.toNat)) (0 : Int))
  else none

/-- `Number(s)` as an optional integer (`none` = NaN). -/
def jsNumber (s : Str) : Option Int :=
  match jsTrim s with
  | [] => some 0
  | '-' :: ds => (decDigits? ds).map (fun n => -n)
  | '+' :: ds => decDigits? ds
  | t => decDigits? t

/-- `Number(x)` where `x : string | undefined`; `Number(undefined)` is NaN. -/
def jsNumberU : Option Str → Option Int
  | none => none
  | some s => jsNumber s

/-! ## Insertion-ordered maps (`Record<string, number>` etc.) -/

/-- First-occurrence lookup in an association list (property read on a
JavaScript object with unique keys). -/
def jsLookup {α : Type} : List (Str × α) → Str → Option α
  | [], _ => none
  | (k, v) :: rest, key => if k = key then some v else jsLookup rest key

/-- `m[k] = (m[k] ?? 0) + v`: accumulate into an existing entry in place,
or append a new entry. -/
def bump : List (Str × Int) → Str → Int → List (Str × Int)
  | [], k, v => [(k, v)]
  | (k', v') :: rest, k, v =>
    if k' = k then (k', v' + v) :: rest else (k', v') :: bump rest k v

/-- `m[k] = v`: overwrite an existing entry in place, or append. -/
def setKey : List (Str × Int) → Str → Int → List (Str × Int)
  | [], k, v => [(k, v)]
  | (k', v') :: rest, k, v =>
    if k' = k then (k', v) :: rest else (k', v') :: setKey rest k v

/-- Sum of the values of a map. -/
def sumValues (m : List (Str × Int)) : Int := (m.map Prod.snd).sum

/-- A `LanguageByteMap` / `PathChurnMap`: language or path keys with
accumulated integer totals, in insertion order. -/
abbrev LangMap := List (Str × Int)

/-! ## `normalizeGitPath` -/

/-- Characters allowed inside the regex character class `[^{}]`. -/
def isNonBrace (c : Char) : Bool := c ≠ '{' && c ≠ '}'

/-- Leftmost match of the regex `\{([^{}]+)\}` used by `normalizeGitPath`:
returns `(before, inner, after)` with the subject equal to
`before ++ "{" ++ inner ++ "}" ++ after`, `inner` nonempty and brace-free,
at the leftmost position where such a match exists.  The scan tries each
position in turn exactly as the regex engine does. -/
def firstBraceMatch : Str → Option (Str × Str × Str)
  | [] => none
  | c :: rest =>
    if c = '{' then
      match rest.dropWhile isNonBrace with
      | '}' :: after =>
        if rest.takeWhile isNonBrace = [] then
          (firstBraceMatch rest).map (fun x => (c :: x.1, x.2.1, x.2.2))
        else some ([], rest.takeWhile isNonBrace, after)
      | _ => (firstBraceMatch rest).map (fun x => (c :: x.1, x.2.1, x.2.2))
    else (firstBraceMatch rest).map (fun x => (c :: x.1, x.2.1, x.2.2))

/-- `s.replace(pat, repl)` for a plain (nonempty) string pattern: replace
the first occurrence of `pat`, scanning left to right; if `pat` does not
occur, return `s` unchanged. -/
def jsReplaceFirst (pat repl : Str) : Str → Str
  | [] => []
  | c :: rest =>
    if startsWithStr pat (c :: rest) then repl ++ (c :: rest).drop pat.length
    else c :: jsReplaceFirst pat repl rest

/-- `s.replaceAll("//", "/")`: replace every non-overlapping occurrence of
`"//"` by `"/"`, scanning left to right (a single pass; replacements are
not rescanned). -/
def collapseDoubleSlash : Str → Str
  | [] => []
  | '/' :: '/' :: rest => '/' :: collapseDoubleSlash rest
  | c :: rest => c :: collapseDoubleSlash rest

/-- The literal `"=>"` rename separator. -/
def arrowStr : Str := ['=', '>']

/-- `normalizeGitPath(rawPath)`: trim the path; if it contains no `"=>"`
return it as is; otherwise resolve the `{old => new}` rename marker found
by the regex `\{([^{}]+)\}` (replacing the matched group by the trimmed
post-rename component and collapsing `"//"`), falling back, when the brace
group is absent or its post-rename component is blank, to taking the
trimmed last `"=>"`-separated piece of the whole path (or the whole
trimmed path when that piece is blank).  In the source the replacement is
`right || left || ""`, evaluated only under `if (right)`, hence equal to
`right`. -/
def normalizeGitPath (rawPath : Str) : Str :=
  let trimmed := jsTrim rawPath
  if containsStr arrowStr trimmed = false then trimmed
  else
    let fallback :=
      let split := splitOnArrow trimmed
      let right := jsTrim (split.getLastD [])
      if right = [] then trimmed else right
    match firstBraceMatch trimmed with
    | some (_before, inner, _after) =>
      match (splitOnArrow inner)[1]? with
      | some rightRaw =>
        let right := jsTrim rightRaw
        if right = [] then fallback
        else collapseDoubleSlash (jsReplaceFirst ('{' :: inner ++ ['}']) right trimmed)
      | none => fallback
    | none => fallback

/-! ## Numstat parsing -/

/-- One iteration of the `parseNumstatOutput` loop: skip blank lines and
lines without a tab; split on tabs into `<added>`, `<deleted>`, `<path>`;
skip a missing or empty path; skip non-numeric counts; otherwise
accumulate `added + deleted` under the normalized path. -/
def numstatLineStep (m : LangMap) (line : Str) : LangMap :=
  if line = [] || containsStr ['\t'] line = false then m
  else
    let parts := splitOnChar '\t' line
    match parts[2]? with
    | none => m
    | some filePathRaw =>
      if filePathRaw = [] then m
      else
        match jsNumberU parts[0]?, jsNumberU parts[1]? with
        | some added, some deleted =>
          bump m (normalizeGitPath filePathRaw) (added + deleted)
        | _, _ => m

/-- `parseNumstatOutput(output)`: fold `numstatLineStep` over the
`\r?\n`-split lines of the raw text. -/
def parseNumstatOutput (output : Str) : LangMap :=
  (splitLinesCh output).foldl numstatLineStep []

/-- `normalizeAuthorPatterns(authorPatterns)`: `undefined` becomes the
empty list; each entry is trimmed and lower-cased and blank entries are
dropped. -/
def normalizeAuthorPatterns (authorPatterns : Option (List Str)) : List Str :=
  match authorPatterns with
  | none => []
  | some l => (l.map (fun value => jsToLower (jsTrim value))).filter (· ≠ [])

/-- The `"@@@"` commit-marker sentinel. -/
def markerStr : Str := ['@', '@', '@']

/-- Is this line a commit marker (`line.startsWith("@@@")`)? -/
def isMarkerLine (line : Str) : Bool := startsWithStr markerStr line

/-- The current author string computed from a marker line:
`` `${name} ${email}`.trim() `` with `name`/`email` the lower-cased second
and third tab-separated fields of the text after `"@@@"` (defaulting to
the empty string when absent). -/
def markerAuthor (line : Str) : Str :=
  let parts := splitOnChar '\t' (line.drop 3)
  let name := jsToLower (parts.getD 1 [])
  let email := jsToLower (parts.getD 2 [])
  jsTrim (name ++ ' ' :: email)

/-- Inclusion state set by a marker line: the commit is included iff no
(normalized) patterns are given or some pattern is a substring of the
current author string. -/
def markerIncluded (patterns : List Str) (line : Str) : Bool :=
  patterns.isEmpty || patterns.any (fun pattern => containsStr pattern (markerAuthor line))

/-- One iteration of the `parseNumstatOutputForAuthors` loop over the pair
(current inclusion flag, accumulated map). -/
def authorLineStep (patterns : List Str) (st : Bool × LangMap) (line : Str) :
    Bool × LangMap :=
  if line = [] then st
  else if isMarkerLine line then (markerIncluded patterns line, st.2)
  else if st.1 = false then st
  else (st.1, numstatLineStep st.2 line)

/-- `parseNumstatOutputForAuthors(output, authorPatterns)`: numstat parsing
with `"@@@"` commit markers switching an author-based inclusion flag,
initially set iff no normalized patterns are given. -/
def parseNumstatOutputForAuthors (output : Str) (authorPatterns : Option (List Str)) :
    LangMap :=
  let patterns := normalizeAuthorPatterns authorPatterns
  ((splitLinesCh output).foldl (authorLineStep patterns) (patterns.isEmpty, [])).2

/-! ## Linguist JSON parsing and language resolution -/

/-- Parsed JSON values (`JSON.parse` output): the shapes relevant to the
classifier output. -/
inductive JsValue where
  | num (n : Int)
  | str (s : Str)
  | boolean (b : Bool)
  | null
  | arr (elems : List JsValue)
  | obj (fields : List (Str × JsValue))

/-- Property read on a parsed JSON object (`record.size` etc.); keys of a
`JSON.parse` result are unique, so first-occurrence lookup is exact. -/
def jsField : List (Str × JsValue) → Str → Option JsValue
  | [], _ => none
  | (k, v) :: rest, key => if k = key then some v else jsField rest key

/-- The classifier value accepted for one language entry: a direct number,
or an object (truthy, `typeof "object"`) whose `size`, else `bytes`,
property is a number; anything else is dropped.  A JSON array is a
JavaScript object without `size`/`bytes` properties, so it is dropped;
`null` is falsy and dropped. -/
def linguistEntryValue : JsValue → Option Int
  | .num n => some n
  | .obj fields =>
    match jsField fields ['s', 'i', 'z', 'e'] with
    | some (.num n) => some n
    | _ =>
      match jsField fields ['b', 'y', 't', 'e', 's'] with
      | some (.num n) => some n
      | _ => none
  | _ => none

/-- `parseLinguistJsonToLanguageBytes(jsonText)` on the already-parsed JSON
object: assign each accepted entry's count under its language name,
dropping the rest. -/
def parseLinguistJsonToLanguageBytes (parsed : List (Str × JsValue)) : LangMap :=
  parsed.foldl
    (fun result entry =>
      match linguistEntryValue entry.2 with
      | some n => setKey result entry.1 n
      | none => result) []

/-- Descending-by-count stable order used by
`Object.entries(parsed).sort((a, b) => b[1] - a[1])`. -/
def byCountDesc (a b : Str × Int) : Bool := b.2 ≤ a.2

/-- `entries[0]?.[0]` after the descending stable sort, under the source's
truthiness guard: the first entry's language name, provided it is
nonempty. -/
def selectTopLanguage (m : LangMap) : Option Str :=
  match (m.mergeSort byCountDesc).head? with
  | some (language, _) => if language = [] then none else some language
  | none => none

/-- The fixed extension table of `detectLanguageFromExtension`. -/
def extMap : List (Str × Str) :=
  [(".ts".toList, "TypeScript".toList), (".tsx".toList, "TypeScript".toList),
   (".js".toList, "JavaScript".toList), (".jsx".toList, "JavaScript".toList),
   (".py".toList, "Python".toList), (".go".toList, "Go".toList),
   (".rs".toList, "Rust".toList), (".java".toList, "Java".toList),
   (".rb".toList, "Ruby".toList), (".php".toList, "PHP".toList),
   (".cs".toList, "C#".toList), (".cpp".toList, "C++".toList),
   (".c".toList, "C".toList), (".h".toList, "C".toList),
   (".hpp".toList, "C++".toList), (".swift".toList, "Swift".toList),
   (".kt".toList, "Kotlin".toList), (".scala".toList, "Scala".toList),
   (".html".toList, "HTML".toList), (".css".toList, "CSS".toList),
   (".scss".toList, "SCSS".toList), (".md".toList, "Markdown".toList),
   (".mdx".toList, "MDX".toList), (".json".toList, "JSON".toList),
   (".yml".toList, "YAML".toList), (".yaml".toList, "YAML".toList),
   (".sh".toList, "Shell".toList)]

/-- Lookup in the extension table. -/
def extLookup : List (Str × Str) → Str → Option Str
  | [], _ => none
  | (k, v) :: rest, key => if k = key then some v else extLookup rest key

/-- `path.extname(filePath)` (POSIX): the final `"."`-suffix of the last
`"/"`-separated component, empty for dotfiles (a leading `"."` does not
start an extension) and for names without a dot. -/
def extname (filePath : Str) : Str :=
  let base := (splitOnChar '/' filePath).getLastD []
  if base = ['.', '.'] then []
  else
    match base with
    | [] => []
    | _ :: baseTail =>
      let tailAfterDot := baseTail.reverse.takeWhile (· ≠ '.')
      if tailAfterDot.length = baseTail.length then []
      else '.' :: tailAfterDot.reverse

/-- `detectLanguageFromExtension(filePath)`: look the lower-cased extension
up in the fixed table (`null` when unmapped). -/
def detectLanguageFromExtension (filePath : Str) : Option Str :=
  extLookup extMap (jsToLower (extname filePath))

/-- `resolveLanguageForFile`, with the external classifier modelled as an
oracle returning the parsed JSON object of `runLinguistJson` on the file,
or `none` when the invocation fails: backslashes in the path are replaced
by slashes, the classifier result (when available) is parsed and the
top-count language returned if its name is nonempty, otherwise the
extension fallback is used. -/
def resolveLanguageForFile
    (classifier : Str → Option (List (Str × JsValue))) (filePath : Str) :
    Option Str :=
  let relativePath := filePath.map (fun c => if c = '\\' then '/' else c)
  match classifier relativePath with
  | some parsed =>
    match selectTopLanguage (parseLinguistJsonToLanguageBytes parsed) with
    | some language => some language
    | none => detectLanguageFromExtension relativePath
  | none => detectLanguageFromExtension relativePath

/-! ## Merging, redaction, acquisition, orchestration -/

/-- `mergeLanguageBytes(target, source)`: accumulate every entry of
`source` into `target` (`target[k] = (target[k] ?? 0) + v`), in `source`'s
entry order. -/
def mergeLanguageBytes (target source : LangMap) : LangMap :=
  source.foldl (fun t entry => bump t entry.1 entry.2) target

/-- Folding per-repository maps into an initially empty running total,
one merge per completed repository. -/
def foldMergeLanguageBytes (results : List LangMap) : LangMap :=
  results.foldl mergeLanguageBytes []

/-- The credential marker `"x-access-token:"` of the clone URL. -/
def xatStr : Str :=
  ['x', '-', 'a', 'c', 'c', 'e', 's', 's', '-', 't', 'o', 'k', 'e', 'n', ':']

/-- The redaction placeholder `"***"`. -/
def stars : Str := ['*', '*', '*']

/-- `redactToken(value)`: `value.replace(/(x-access-token:)([^@]+)/g, "$1***")` —
every occurrence of `"x-access-token:"` followed by a nonempty (maximal)
run of non-`'@'` characters has that run replaced by `"***"`; scanning
resumes after the replaced run. -/
def redactToken (value : Str) : Str :=
  match value with
  | [] => []
  | c :: rest =>
    if startsWithStr xatStr (c :: rest) then
      if (c :: rest).drop 15 |>.takeWhile (· ≠ '@') |>.isEmpty then
        c :: redactToken rest
      else
        xatStr ++ stars ++ redactToken ((c :: rest).drop 15 |>.dropWhile (· ≠ '@'))
    else c :: redactToken rest
termination_by value.length
decreasing_by
  · simp
  · simp only [List.length_cons]
    calc (((c :: rest).drop 15).dropWhile (· ≠ '@')).length
        ≤ ((c :: rest).drop 15).length :=
          (List.dropWhile_sublist (· ≠ '@')).length_le
      _ ≤ rest.length := by simp [List.length_drop]
      _ < rest.length + 1 := Nat.lt_succ_self _
  · simp

/-- `repo.full_name` is the only repository field the modelled analysis
reads. -/
structure RepoSummary where
  full_name : Str
deriving DecidableEq

/-- A skipped-repository record `{fullName, reason}`. -/
structure SkippedRepo where
  fullName : Str
  reason : Str
deriving DecidableEq

/-- `prepareRepoDirectory` in scratch mode (no cache root), with the
`git clone --depth=1` invocation modelled by its outcome: on failure the
acquirer raises `"Failed to clone <full_name>: "` followed by the redacted
error message; on success it yields the working directory. -/
def prepareRepoDirectoryScratch (cloneOutcome : Except Str Unit)
    (repo : RepoSummary) : Except Str Unit :=
  match cloneOutcome with
  | .ok _ => .ok ()
  | .error message =>
    .error ("Failed to clone ".toList ++ repo.full_name ++ ": ".toList ++
      redactToken message)

/-- `analyzeWithClone`, specialized to the injected per-repository
analysis strategy (`analyzeRepoFullFn` / `analyzeRepoPastWeekFn`); the
bounded worker pool is modelled by completion in list order — per-repo
results are merged into the running totals as they complete, and a
throwing repository is appended to `skippedRepositories` with its redacted
message instead of contributing to the totals. -/
def analyzeWithClone (analyzeRepo : RepoSummary → Except Str LangMap)
    (repos : List RepoSummary) : LangMap × List SkippedRepo :=
  repos.foldl
    (fun acc repo =>
      match analyzeRepo repo with
      | .ok repoTotals => (mergeLanguageBytes acc.1 repoTotals, acc.2)
      | .error e => (acc.1, acc.2 ++ [⟨repo.full_name, redactToken e⟩]))
    ([], [])

/-! ## History extension -/

/-- Commands issued by `ensureHistoryForSince`: the oldest-commit query
`git log --all --reverse --format=%cI -n 1`, and `git fetch --deepen <n>
origin`. -/
inductive GitCmd where
  | oldestQuery
  | deepen (n : Nat)
deriving DecidableEq

/-- Oracle for the git subprocesses of one `ensureHistoryForSince` run:
the stdout of the `k`-th oldest-commit query (`none` when the command
throws) and the success of the `k`-th deepen request. -/
structure GitEnv where
  oldestOut : Nat → Option Str
  deepenOk : Nat → Bool

/-- The escalating `--deepen` increments. -/
def deepenSteps : List Nat := [100, 300, 700, 1500]

/-- The loop of `ensureHistoryForSince` over the remaining deepen steps,
on iteration index `k`, collecting the trace of issued git commands; the
boolean is `false` when the run raises (only the uncaught oldest-commit
query can throw — a failed deepen is caught and stops silently). -/
def ensureHistoryLoop (parseDate : Str → Option Int) (env : GitEnv) (cutoffMs : Int) :
    List Nat → Nat → List GitCmd × Bool
  | [], _ => ([], true)
  | deepenBy :: restSteps, k =>
    match env.oldestOut k with
    | none => ([.oldestQuery], false)
    | some out =>
      let oldest := jsTrim out
      let stop :=
        match parseDate oldest with
        | some oldestMs => decide (oldestMs ≤ cutoffMs)
        | none => false
      if stop then ([.oldestQuery], true)
      else if env.deepenOk k then
        let next := ensureHistoryLoop parseDate env cutoffMs restSteps (k + 1)
        (.oldestQuery :: .deepen deepenBy :: next.1, next.2)
      else ([.oldestQuery, .deepen deepenBy], true)

/-- `ensureHistoryForSince(repoDir, sinceIso)`: parametrized by the host
ISO-8601 parser `Date.parse` (`none` = NaN) and the git oracle.  An
unparseable cutoff skips extension entirely; otherwise the loop reads the
oldest commit timestamp, stops when it is at or before the cutoff, and
otherwise requests escalating deepens, stopping silently at the first
deepen failure. -/
def ensureHistoryForSince (parseDate : Str → Option Int) (env : GitEnv)
    (sinceIso : Str) : List GitCmd × Bool :=
  match parseDate sinceIso with
  | none => ([], true)
  | some cutoffMs => ensureHistoryLoop parseDate env cutoffMs deepenSteps 0

/-! ## Windowed (past-week) per-repository totals -/

/-- The language used for a path in `analyzeRepoPastWeek`: the persisted
per-repository cache entry when the path is present (even a blank one —
cache entries are never re-resolved), otherwise the resolver's answer
(`resolveLanguageForFile`, modelled as an oracle `Str → Option Str`). -/
def effectiveLanguage (persisted : List (Str × Str)) (resolver : Str → Option Str)
    (filePath : Str) : Option Str :=
  match jsLookup persisted filePath with
  | some language => some language
  | none => resolver filePath

/-- Does a path-churn entry contribute to the totals?  Only entries with
positive churn whose effective language is present and nonempty (the
source's `if (!language) continue` skips both `null` and `""`). -/
def churnContributes (persisted : List (Str × Str)) (resolver : Str → Option Str)
    (entry : Str × Int) : Bool :=
  decide (0 < entry.2) &&
    match effectiveLanguage persisted resolver entry.1 with
    | some language => !(language = [])
    | none => false

/-- One iteration of the `analyzeRepoPastWeek` accumulation loop: skip
non-positive churn, resolve the language (cache first), skip unresolved or
blank languages, and accumulate the churn under the language. -/
def churnStep (persisted : List (Str × Str)) (resolver : Str → Option Str)
    (totals : LangMap) (entry : Str × Int) : LangMap :=
  if entry.2 ≤ (0 : Int) then totals
  else
    match effectiveLanguage persisted resolver entry.1 with
    | some language =>
      if language = [] then totals else bump totals language entry.2
    | none => totals

/-- The accumulation loop of `analyzeRepoPastWeek` over the path-churn
entries. -/
def computeChurnTotals (persisted : List (Str × Str)) (resolver : Str → Option Str)
    (pathChurn : LangMap) : LangMap :=
  pathChurn.foldl (churnStep persisted resolver) []

/-- The language-attribution stage of `analyzeRepoPastWeek`: parse the
numstat log output (author-filtered) into path churn, then accumulate
per-language totals with the cache-assisted resolver. -/
def analyzeRepoPastWeekTotals (persisted : List (Str × Str))
    (resolver : Str → Option Str) (numstatOutput : Str)
    (authorPatterns : Option (List Str)) : LangMap :=
  computeChurnTotals persisted resolver
    (parseNumstatOutputForAuthors numstatOutput authorPatterns)

/-! ## Specification-side views used by the theorems -/

/-- Group a line list into the lines before the first commit marker and,
for each marker line, the marker with its following non-marker lines. -/
def splitCommits : List Str → List Str × List (Str × List Str)
  | [] => ([], [])
  | l :: rest =>
    let s := splitCommits rest
    if isMarkerLine l then ([], (l, s.1) :: s.2) else (l :: s.1, s.2)

/-- The lines whose data the author-filtered parser may count: the
preamble lines (before any marker) when no patterns are given, plus the
bodies of exactly the commits whose marker matches. -/
def includedDataLines (patterns : List Str) (lines : List Str) : List Str :=
  let s := splitCommits lines
  (if patterns.isEmpty then s.1 else []) ++
    ((s.2.filter (fun b => markerIncluded patterns b.1)).map Prod.snd).flatten

/-- The data lines the author-filtered parser may count from a given
inclusion state: preamble when the state is on, then the included commit
bodies. -/
def activeDataLines (patterns : List Str) (inc : Bool) (lines : List Str) : List Str :=
  (if inc then (splitCommits lines).1 else []) ++
    (((splitCommits lines).2.filter (fun b => markerIncluded patterns b.1)).map
      Prod.snd).flatten

/-- The per-entry accumulation step of `parseLinguistJsonToLanguageBytes`. -/
def linguistStep (result : LangMap) (entry : Str × JsValue) : LangMap :=
  match linguistEntryValue entry.2 with
  | some n => setKey result entry.1 n
  | none => result

/-- Does the map carry an entry for key `k`? -/
def hasKey (m : LangMap) (k : Str) : Bool := m.any (fun e => e.1 = k)

/-- Total of the values stored under key `k` (0 when absent). -/
def sumAt (m : LangMap) (k : Str) : Int :=
  ((m.filter (fun e => e.1 = k)).map Prod.snd).sum

/-! ## Supporting lemmas -/

theorem startsWithStr_iff {p s : Str} : startsWithStr p s = true ↔ ∃ t, s = p ++ t := by
  induction p generalizing s with
  | nil => simp [startsWithStr]
  | cons c cs ih =>
    cases s with
    | nil => simp [startsWithStr]
    | cons d ds =>
      simp only [startsWithStr, Bool.and_eq_true, decide_eq_true_eq, ih,
        List.cons_append, List.cons.injEq]
      constructor
      · rintro ⟨rfl, t, rfl⟩; exact ⟨t, rfl, rfl⟩
      · rintro ⟨t, rfl, rfl⟩; exact ⟨rfl, t, rfl⟩

theorem startsWithStr_self_append (p t : Str) : startsWithStr p (p ++ t) = true :=
  startsWithStr_iff.2 ⟨t, rfl⟩

theorem containsStr_iff {p s : Str} : containsStr p s = true ↔ ∃ a b, s = a ++ p ++ b := by
  induction s with
  | nil =>
    simp only [containsStr, startsWithStr_iff]
    constructor
    · rintro ⟨t, ht⟩
      exact ⟨[], t, by simpa using ht⟩
    · rintro ⟨a, b, hab⟩
      have h3 : a = [] ∧ p = [] ∧ b = [] := by simpa using hab.symm
      exact ⟨[], by simp [h3.2.1]⟩
  | cons c cs ih =>
    simp only [containsStr, Bool.or_eq_true, startsWithStr_iff, ih]
    constructor
    · rintro (⟨t, ht⟩ | ⟨a, b, hab⟩)
      · exact ⟨[], t, by simpa using ht⟩
      · exact ⟨c :: a, b, by simp [hab]⟩
    · rintro ⟨a, b, hab⟩
      cases a with
      | nil => exact Or.inl ⟨b, by simpa using hab⟩
      | cons a0 as =>
        right
        refine ⟨as, b, ?_⟩
        simpa using (List.cons.inj hab).2

theorem containsStr_cons (p : Str) (c : Char) (s : Str) :
    containsStr p (c :: s) = (startsWithStr p (c :: s) || containsStr p s) := rfl

theorem containsStr_of_startsWith {p s : Str} (h : startsWithStr p s = true) :
    containsStr p s = true := by
  cases s with
  | nil => simpa [containsStr] using h
  | cons c cs => simp [containsStr, h]

theorem consHead_cons (c : Char) (h : Str) (t : List Str) :
    consHead c (h :: t) = (c :: h) :: t := rfl

theorem splitOnChar_ne_nil (sep : Char) (s : Str) : splitOnChar sep s ≠ [] := by
  induction s with
  | nil => simp [splitOnChar]
  | cons c cs ih =>
    rw [splitOnChar]
    split
    · simp
    · cases h : splitOnChar sep cs with
      | nil => exact absurd h ih
      | cons a as => simp [consHead]

theorem splitOnChar_sep_free {sep : Char} {s : Str} (h : ∀ c ∈ s, c ≠ sep) :
    splitOnChar sep s = [s] := by
  induction s with
  | nil => rfl
  | cons c cs ih =>
    rw [splitOnChar, if_neg (by simpa using h c (by simp))]
    rw [ih (fun x hx => h x (by simp [hx]))]
    rfl

theorem splitOnChar_append_sep {sep : Char} {a : Str} (rest : Str)
    (h : ∀ c ∈ a, c ≠ sep) :
    splitOnChar sep (a ++ sep :: rest) = a :: splitOnChar sep rest := by
  induction a with
  | nil => simp [splitOnChar]
  | cons c cs ih =>
    rw [List.cons_append, splitOnChar, if_neg (by simpa using h c (by simp))]
    rw [ih (fun x hx => h x (by simp [hx]))]
    rfl

theorem splitLinesCh_line_append {l1 : Str} (l2 : Str)
    (h : ∀ c ∈ l1, c ≠ '\n' ∧ c ≠ '\r') :
    splitLinesCh (l1 ++ '\n' :: l2) = l1 :: splitLinesCh l2 := by
  induction l1 with
  | nil => simp [splitLinesCh]
  | cons c cs ih =>
    have hc := h c (by simp)
    have hrest : splitLinesCh (cs ++ '\n' :: l2) = cs :: splitLinesCh l2 :=
      ih (fun x hx => h x (by simp [hx]))
    cases cs with
    | nil =>
      rw [List.cons_append, List.nil_append]
      rw [show splitLinesCh (c :: '\n' :: l2) = consHead c (splitLinesCh ('\n' :: l2)) by
        rw [splitLinesCh.eq_def]
        split <;> simp_all]
      rw [show splitLinesCh ('\n' :: l2) = [] :: splitLinesCh l2 from rfl]
      rfl
    | cons c2 cs2 =>
      rw [List.cons_append]
      rw [show splitLinesCh (c :: (c2 :: cs2 ++ '\n' :: l2)) =
          consHead c (splitLinesCh (c2 :: cs2 ++ '\n' :: l2)) by
        rw [splitLinesCh.eq_def]
        split <;> simp_all]
      rw [hrest]
      rfl

theorem splitOnArrow_cons {c : Char} {cs : Str}
    (h : startsWithStr arrowStr (c :: cs) = false) :
    splitOnArrow (c :: cs) = consHead c (splitOnArrow cs) := by
  rw [splitOnArrow.eq_def]
  split
  · rename_i heq
    exact absurd heq (by simp)
  · rename_i rest heq
    injection heq with h1 h2
    subst h1
    subst h2
    simp [startsWithStr, arrowStr] at h
  · rename_i c' rest' hguard heq
    injection heq with h1 h2
    subst h1
    subst h2
    rfl

theorem startsWith_arrow_space (s : Str) :
    startsWithStr arrowStr (' ' :: s) = false := by
  simp [startsWithStr, arrowStr]

theorem splitOnArrow_of_arrowFree {s : Str} (h : containsStr arrowStr s = false) :
    splitOnArrow s = [s] := by
  induction s with
  | nil => rfl
  | cons c cs ih =>
    rw [containsStr_cons] at h
    have h1 : startsWithStr arrowStr (c :: cs) = false := by
      cases hx : startsWithStr arrowStr (c :: cs) <;> simp_all
    have h2 : containsStr arrowStr cs = false := by
      cases hx : containsStr arrowStr cs <;> simp_all
    rw [splitOnArrow_cons h1, ih h2]
    rfl

theorem splitOnArrow_append_sep {a : Str} (t : Str)
    (h : containsStr arrowStr a = false) :
    splitOnArrow (a ++ ' ' :: '=' :: '>' :: t) = (a ++ [' ']) :: splitOnArrow t := by
  induction a with
  | nil =>
    rw [List.nil_append, splitOnArrow_cons (startsWith_arrow_space _)]
    rw [show splitOnArrow ('=' :: '>' :: t) = [] :: splitOnArrow t from rfl]
    rfl
  | cons c cs ih =>
    rw [containsStr_cons] at h
    have h1 : startsWithStr arrowStr (c :: cs) = false := by
      cases hx : startsWithStr arrowStr (c :: cs) <;> simp_all
    have h2 : containsStr arrowStr cs = false := by
      cases hx : containsStr arrowStr cs <;> simp_all
    have h1' : startsWithStr arrowStr (c :: (cs ++ ' ' :: '=' :: '>' :: t)) = false := by
      cases cs with
      | nil =>
        cases hc : decide (c = '=') with
        | false =>
          simp [startsWithStr, arrowStr, show c ≠ '=' by simpa using hc]
        | true =>
          simp [startsWithStr, arrowStr]
      | cons c2 cs2 =>
        simp only [startsWithStr, arrowStr, List.cons_append] at h1 ⊢
        exact h1
    rw [List.cons_append, splitOnArrow_cons h1', ih h2]
    rfl

theorem containsStr_arrow_cons_space {s : Str} (h : containsStr arrowStr s = false) :
    containsStr arrowStr (' ' :: s) = false := by
  rw [containsStr_cons, h]
  simp [startsWithStr, arrowStr]

theorem jsTrim_cons_ws {c : Char} (s : Str) (h : jsWhitespace c = true) :
    jsTrim (c :: s) = jsTrim s := by
  simp [jsTrim, List.dropWhile_cons, h]

theorem jsTrim_cons_not_ws {c : Char} (s : Str) (h : jsWhitespace c = false) :
    jsTrim (c :: s) = c :: (s.reverse.dropWhile jsWhitespace).reverse := by
  simp only [jsTrim, List.dropWhile_cons, h, Bool.false_eq_true, if_false,
    List.reverse_cons, List.dropWhile_append]
  split
  · rename_i hempty
    have : s.reverse.dropWhile jsWhitespace = [] := by
      simpa using hempty
    simp [this, List.dropWhile_cons, h]
  · simp

theorem decDigits?_at_cons (t : Str) : decDigits? ('@' :: t) = none := by
  rw [decDigits?, if_neg (by simp)]
  rw [if_neg]
  intro hall
  rw [List.all_cons] at hall
  have : ('@'.isDigit : Bool) = true := by
    cases hx : ('@'.isDigit : Bool)
    · rw [hx] at hall
      simp at hall
    · rfl
  exact absurd this (by decide)

theorem jsNumber_of_trim_at {s t : Str} (h : jsTrim s = '@' :: t) :
    jsNumber s = none := by
  rw [jsNumber.eq_def, h]
  split
  · rename_i heq
    exact absurd heq (by simp)
  · rename_i ds heq
    injection heq with h1 h2
    exact absurd h1 (by decide)
  · rename_i ds heq
    injection heq with h1 h2
    exact absurd h1 (by decide)
  · rename_i x1 x2 x3
    exact decDigits?_at_cons t

theorem jsNumber_at_cons (s : Str) : jsNumber ('@' :: s) = none :=
  jsNumber_of_trim_at (jsTrim_cons_not_ws s (by decide))

theorem jsLookup_bump_self (m : LangMap) (k : Str) (v : Int) :
    jsLookup (bump m k v) k = some ((jsLookup m k).getD 0 + v) := by
  induction m with
  | nil => simp [bump, jsLookup]
  | cons e rest ih =>
    obtain ⟨k', v'⟩ := e
    by_cases h : k' = k
    · subst h
      simp [bump, jsLookup]
    · simp [bump, jsLookup, h, ih]

theorem jsLookup_bump_ne (m : LangMap) {k k' : Str} (v : Int) (h : k' ≠ k) :
    jsLookup (bump m k v) k' = jsLookup m k' := by
  have hkk : ¬ k = k' := fun hh => h hh.symm
  induction m with
  | nil => simp [bump, jsLookup, hkk]
  | cons e rest ih =>
    obtain ⟨k0, v0⟩ := e
    by_cases h0 : k0 = k
    · subst h0
      simp [bump, jsLookup, hkk]
    · simp only [bump, if_neg h0, jsLookup]
      split <;> simp_all

theorem sumValues_bump (m : LangMap) (k : Str) (v : Int) :
    sumValues (bump m k v) = sumValues m + v := by
  induction m with
  | nil => simp [bump, sumValues]
  | cons e rest ih =>
    obtain ⟨k0, v0⟩ := e
    by_cases h0 : k0 = k
    · subst h0
      simp only [bump, if_pos rfl, sumValues, List.map_cons, List.sum_cons, if_true,
        eq_self_iff_true]
      ring
    · simp only [bump, if_neg h0, sumValues, List.map_cons, List.sum_cons] at ih ⊢
      rw [ih]
      ring

theorem splitOnChar_cons_ne {sep c : Char} (s : Str) (h : c ≠ sep) :
    splitOnChar sep (c :: s) = consHead c (splitOnChar sep s) := by
  rw [splitOnChar, if_neg (by simpa using h)]

theorem splitOnChar_head_cons {sep c : Char} (s : Str) (h : c ≠ sep) :
    ∃ h' t', splitOnChar sep (c :: s) = (c :: h') :: t' := by
  rw [splitOnChar_cons_ne s h]
  cases hx : splitOnChar sep s with
  | nil => exact absurd hx (splitOnChar_ne_nil sep s)
  | cons a as => exact ⟨a, as, rfl⟩

theorem numstatLineStep_nil (m : LangMap) : numstatLineStep m [] = m := by
  simp [numstatLineStep]

theorem numstatLineStep_marker {line : Str} (m : LangMap)
    (h : isMarkerLine line = true) : numstatLineStep m line = m := by
  obtain ⟨t, rfl⟩ : ∃ t, line = markerStr ++ t := startsWithStr_iff.1 h
  show numstatLineStep m ('@' :: '@' :: '@' :: t) = m
  by_cases htab : containsStr ['\t'] ('@' :: '@' :: '@' :: t) = true
  · obtain ⟨h', t', hsplit⟩ :=
      @splitOnChar_head_cons '\t' '@' ('@' :: '@' :: t) (by decide)
    rw [numstatLineStep, if_neg (by simp [htab])]
    simp only [hsplit]
    have h0 : (((('@' :: h') :: t' : List Str))[0]?) = some ('@' :: h') := by simp
    cases h2 : ((('@' :: h') :: t' : List Str))[2]? with
    | none => rfl
    | some fp =>
      simp only [h0, jsNumberU, jsNumber_at_cons]
      split <;> rfl
  · rw [numstatLineStep, if_pos]
    simp only [Bool.not_eq_true] at htab
    simp [htab]

theorem isMarkerLine_nil : isMarkerLine [] = false := rfl

theorem authorLineStep_data (patterns : List Str) (m : LangMap) {line : Str}
    (h1 : line ≠ []) (h2 : isMarkerLine line = false) :
    authorLineStep patterns (true, m) line = (true, numstatLineStep m line) := by
  simp [authorLineStep, h1, h2]

theorem foldl_authorStep_eq (patterns : List Str) :
    ∀ (lines : List Str) (inc : Bool) (m : LangMap),
      (lines.foldl (authorLineStep patterns) (inc, m)).2 =
        (activeDataLines patterns inc lines).foldl numstatLineStep m := by
  intro lines
  induction lines with
  | nil =>
    intro inc m
    cases inc <;> simp [activeDataLines, splitCommits]
  | cons l rest ih =>
    intro inc m
    by_cases hl : l = []
    · subst hl
      rw [List.foldl_cons, show authorLineStep patterns (inc, m) [] = (inc, m) from rfl]
      rw [ih inc m]
      have hsc : splitCommits ([] :: rest) =
          ((([] : Str)) :: (splitCommits rest).1, (splitCommits rest).2) := by
        rw [splitCommits, if_neg (by simp [isMarkerLine_nil])]
      cases inc with
      | true =>
        simp only [activeDataLines, hsc, if_true]
        rw [List.cons_append, List.foldl_cons, numstatLineStep_nil]
      | false =>
        simp [activeDataLines, hsc]
    · by_cases hm : isMarkerLine l = true
      · rw [List.foldl_cons,
          show authorLineStep patterns (inc, m) l = (markerIncluded patterns l, m) by
            simp [authorLineStep, hl, hm]]
        rw [ih (markerIncluded patterns l) m]
        have hsc : splitCommits (l :: rest) =
            ([], (l, (splitCommits rest).1) :: (splitCommits rest).2) := by
          rw [splitCommits, if_pos hm]
        cases hinc : markerIncluded patterns l with
        | true =>
          simp only [activeDataLines, hsc, List.filter_cons, hinc, if_true, if_false,
            List.map_cons, List.flatten_cons, List.nil_append]
          cases inc <;> simp
        | false =>
          simp only [activeDataLines, hsc, List.filter_cons, hinc, if_false]
          cases inc <;> simp
      · have hm' : isMarkerLine l = false := by
          cases hx : isMarkerLine l
          · rfl
          · exact absurd hx hm
        have hsc : splitCommits (l :: rest) =
            (l :: (splitCommits rest).1, (splitCommits rest).2) := by
          rw [splitCommits, if_neg (by simp [hm'])]
        cases inc with
        | true =>
          rw [List.foldl_cons, authorLineStep_data patterns m hl hm']
          rw [ih true (numstatLineStep m l)]
          simp only [activeDataLines, hsc, if_true]
          rw [List.cons_append, List.foldl_cons]
        | false =>
          rw [List.foldl_cons,
            show authorLineStep patterns (false, m) l = (false, m) by
              simp [authorLineStep, hl, hm']]
          rw [ih false m]
          simp [activeDataLines, hsc]

theorem foldl_authorStep_nil_patterns :
    ∀ (lines : List Str) (m : LangMap),
      (lines.foldl (authorLineStep []) (true, m)).2 = lines.foldl numstatLineStep m := by
  intro lines
  induction lines with
  | nil => intro m; rfl
  | cons l rest ih =>
    intro m
    by_cases hl : l = []
    · subst hl
      rw [List.foldl_cons, show authorLineStep [] (true, m) [] = (true, m) from rfl,
        List.foldl_cons, numstatLineStep_nil, ih m]
    · by_cases hm : isMarkerLine l = true
      · rw [List.foldl_cons,
          show authorLineStep [] (true, m) l = (markerIncluded [] l, m) by
            simp [authorLineStep, hl, hm]]
        rw [show markerIncluded [] l = true by simp [markerIncluded]]
        rw [ih m, List.foldl_cons, numstatLineStep_marker m hm]
      · have hm' : isMarkerLine l = false := by
          cases hx : isMarkerLine l
          · rfl
          · exact absurd hx hm
        rw [List.foldl_cons, authorLineStep_data [] m hl hm', ih, List.foldl_cons]

theorem sumAt_eq_zero {m : LangMap} {k : Str} (h : hasKey m k = false) :
    sumAt m k = 0 := by
  have hfil : m.filter (fun e => e.1 = k) = [] := by
    rw [List.filter_eq_nil_iff]
    intro e he
    simp only [hasKey, List.any_eq_true, not_exists] at h
    have := List.any_eq_false.1 h e he
    simpa using this
  simp [sumAt, hfil]

theorem sumAt_cons_self (e : Str × Int) (rest : LangMap) {k : Str} (h : e.1 = k) :
    sumAt (e :: rest) k = e.2 + sumAt rest k := by
  simp [sumAt, List.filter_cons, h]

theorem sumAt_cons_ne (e : Str × Int) (rest : LangMap) {k : Str} (h : ¬ e.1 = k) :
    sumAt (e :: rest) k = sumAt rest k := by
  simp [sumAt, List.filter_cons, h]

theorem jsLookup_merge (s : LangMap) (k : Str) :
    ∀ t, jsLookup (mergeLanguageBytes t s) k =
      if hasKey s k then some ((jsLookup t k).getD 0 + sumAt s k)
      else jsLookup t k := by
  induction s with
  | nil =>
    intro t
    simp [mergeLanguageBytes, hasKey]
  | cons e rest ih =>
    intro t
    have hstep : mergeLanguageBytes t (e :: rest) =
        mergeLanguageBytes (bump t e.1 e.2) rest := rfl
    rw [hstep, ih (bump t e.1 e.2)]
    by_cases hk : e.1 = k
    · have hbump : jsLookup (bump t e.1 e.2) k =
          some ((jsLookup t k).getD 0 + e.2) := by
        rw [hk] at *
        exact jsLookup_bump_self t k e.2
      have hhk : hasKey (e :: rest) k = true := by
        simp [hasKey, hk]
      rw [hhk, if_pos rfl, sumAt_cons_self e rest hk]
      by_cases hr : hasKey rest k = true
      · rw [if_pos hr, hbump]
        simp only [Option.getD_some]
        congr 1
        ring
      · have hr' : hasKey rest k = false := by
          cases hx : hasKey rest k
          · rfl
          · exact absurd hx hr
        rw [if_neg (by simp [hr']), hbump, sumAt_eq_zero hr']
        congr 1
        ring
    · have hbump : jsLookup (bump t e.1 e.2) k = jsLookup t k :=
        jsLookup_bump_ne t e.2 (fun hh => hk hh.symm)
      have hhk : hasKey (e :: rest) k = hasKey rest k := by
        simp [hasKey, hk]
      rw [hhk, sumAt_cons_ne e rest hk, hbump]

theorem jsLookup_foldMerge_aux (k : Str) :
    ∀ (ms : List LangMap) (t : LangMap),
      jsLookup (ms.foldl mergeLanguageBytes t) k =
        if ms.any (fun m => hasKey m k) then
          some ((jsLookup t k).getD 0 + (ms.map (fun m => sumAt m k)).sum)
        else jsLookup t k := by
  intro ms
  induction ms with
  | nil => intro t; simp
  | cons s rest ih =>
    intro t
    rw [List.foldl_cons, ih (mergeLanguageBytes t s)]
    by_cases hs : hasKey s k = true
    · have hmerge := jsLookup_merge s k t
      rw [if_pos hs] at hmerge
      have hany : (s :: rest).any (fun m => hasKey m k) = true := by
        simp [List.any_cons, hs]
      rw [hany, if_pos rfl]
      by_cases hr : rest.any (fun m => hasKey m k) = true
      · rw [if_pos hr, hmerge]
        simp only [Option.getD_some, List.map_cons, List.sum_cons]
        congr 1
        ring
      · have hr' : rest.any (fun m => hasKey m k) = false := by
          cases hx : rest.any (fun m => hasKey m k)
          · rfl
          · exact absurd hx hr
        have hzero : (rest.map (fun m => sumAt m k)).sum = 0 := by
          apply List.sum_eq_zero
          intro x hx
          obtain ⟨mm, hmm, rfl⟩ := List.mem_map.1 hx
          have : hasKey mm k = false := by
            have := List.any_eq_false.1 hr' mm hmm
            cases hy : hasKey mm k
            · rfl
            · exact absurd hy this
          exact sumAt_eq_zero this
        rw [if_neg (by simp [hr']), hmerge]
        simp [hzero]
    · have hs' : hasKey s k = false := by
        cases hx : hasKey s k
        · rfl
        · exact absurd hx hs
      have hmerge := jsLookup_merge s k t
      rw [if_neg (by simp [hs'])] at hmerge
      have hany : (s :: rest).any (fun m => hasKey m k) =
          rest.any (fun m => hasKey m k) := by
        simp [List.any_cons, hs']
      rw [hany, hmerge]
      simp [sumAt_eq_zero hs']

theorem jsLookup_foldMerge (ms : List LangMap) (k : Str) :
    jsLookup (foldMergeLanguageBytes ms) k =
      if ms.any (fun m => hasKey m k) then
        some ((ms.map (fun m => sumAt m k)).sum)
      else none := by
  rw [foldMergeLanguageBytes, jsLookup_foldMerge_aux k ms []]
  simp [jsLookup]

theorem churnStep_eq (p : List (Str × Str)) (r : Str → Option Str) (t : LangMap)
    (e : Str × Int) :
    churnStep p r t e =
      if churnContributes p r e then
        bump t ((effectiveLanguage p r e.1).getD []) e.2
      else t := by
  rw [churnStep, churnContributes]
  by_cases hle : e.2 ≤ (0 : Int)
  · rw [if_pos hle, if_neg]
    simp only [Bool.and_eq_true, decide_eq_true_eq]
    intro ⟨hpos, _⟩
    omega
  · rw [if_neg hle]
    have hpos : decide (0 < e.2) = true := by
      simp only [decide_eq_true_eq]
      omega
    cases hlang : effectiveLanguage p r e.1 with
    | none => simp [hpos, hlang]
    | some language =>
      simp only [hpos, hlang, Option.getD_some, Bool.true_and]
      by_cases hl : language = [] <;> simp [hl]

theorem computeChurnTotals_aux (p : List (Str × Str)) (r : Str → Option Str) :
    ∀ (pc : LangMap) (t : LangMap),
      pc.foldl (churnStep p r) t =
        (pc.filter (churnContributes p r)).foldl (churnStep p r) t := by
  intro pc
  induction pc with
  | nil => intro t; rfl
  | cons e rest ih =>
    intro t
    rw [List.foldl_cons, List.filter_cons]
    by_cases hc : churnContributes p r e = true
    · rw [if_pos hc, List.foldl_cons, ih]
    · have hc' : churnContributes p r e = false := by
        cases hx : churnContributes p r e
        · rfl
        · exact absurd hx hc
      rw [if_neg (by simp [hc']), ih]
      rw [churnStep_eq, if_neg (by simp [hc'])]

theorem computeChurnTotals_filter (p : List (Str × Str)) (r : Str → Option Str)
    (pc : LangMap) :
    computeChurnTotals p r pc =
      computeChurnTotals p r (pc.filter (churnContributes p r)) := by
  rw [computeChurnTotals, computeChurnTotals, computeChurnTotals_aux]

theorem sumValues_computeChurnTotals_aux (p : List (Str × Str)) (r : Str → Option Str) :
    ∀ (pc : LangMap) (t : LangMap),
      sumValues (pc.foldl (churnStep p r) t) =
        sumValues t + ((pc.filter (churnContributes p r)).map Prod.snd).sum := by
  intro pc
  induction pc with
  | nil => intro t; simp
  | cons e rest ih =>
    intro t
    rw [List.foldl_cons, ih, List.filter_cons]
    by_cases hc : churnContributes p r e = true
    · rw [if_pos hc, churnStep_eq, if_pos hc, sumValues_bump]
      simp only [List.map_cons, List.sum_cons]
      ring
    · have hc' : churnContributes p r e = false := by
        cases hx : churnContributes p r e
        · rfl
        · exact absurd hx hc
      rw [if_neg (by simp [hc']), churnStep_eq, if_neg (by simp [hc'])]

theorem sumValues_computeChurnTotals (p : List (Str × Str)) (r : Str → Option Str)
    (pc : LangMap) :
    sumValues (computeChurnTotals p r pc) =
      ((pc.filter (churnContributes p r)).map Prod.snd).sum := by
  rw [computeChurnTotals, sumValues_computeChurnTotals_aux]
  simp [sumValues]

theorem sum_map_filter_mono (q1 q2 : Str × Int → Bool) (l : LangMap)
    (himp : ∀ a, q1 a = true → q2 a = true)
    (hnn : ∀ a, q2 a = true → 0 ≤ a.2) :
    ((l.filter q1).map Prod.snd).sum ≤ ((l.filter q2).map Prod.snd).sum := by
  induction l with
  | nil => simp
  | cons e rest ih =>
    rw [List.filter_cons, List.filter_cons]
    by_cases h1 : q1 e = true
    · rw [if_pos h1, if_pos (himp e h1)]
      simp only [List.map_cons, List.sum_cons]
      omega
    · rw [if_neg (by simp_all)]
      by_cases h2 : q2 e = true
      · rw [if_pos h2]
        simp only [List.map_cons, List.sum_cons]
        have := hnn e h2
        omega
      · rw [if_neg (by simp_all)]
        exact ih

theorem churnContributes_pos {p : List (Str × Str)} {r : Str → Option Str}
    {e : Str × Int} (h : churnContributes p r e = true) :
    decide ((0 : Int) < e.2) = true := by
  rw [churnContributes, Bool.and_eq_true] at h
  exact h.1

theorem analyzeWithClone_aux (analyzeRepo : RepoSummary → Except Str LangMap) :
    ∀ (repos : List RepoSummary) (t : LangMap) (sk : List SkippedRepo),
      repos.foldl
        (fun acc repo =>
          match analyzeRepo repo with
          | .ok repoTotals => (mergeLanguageBytes acc.1 repoTotals, acc.2)
          | .error e => (acc.1, acc.2 ++ [⟨repo.full_name, redactToken e⟩])) (t, sk) =
      ((repos.filterMap (fun r => (analyzeRepo r).toOption)).foldl mergeLanguageBytes t,
        sk ++ repos.filterMap (fun r =>
          match analyzeRepo r with
          | .error e => some ⟨r.full_name, redactToken e⟩
          | .ok _ => none)) := by
  intro repos
  induction repos with
  | nil => intro t sk; simp
  | cons repo rest ih =>
    intro t sk
    rw [List.foldl_cons]
    cases hf : analyzeRepo repo with
    | ok m =>
      simp only [hf]
      rw [ih]
      simp [List.filterMap_cons, hf, Except.toOption]
    | error e =>
      simp only [hf]
      rw [ih]
      simp [List.filterMap_cons, hf, Except.toOption]

theorem analyzeWithClone_spec (analyzeRepo : RepoSummary → Except Str LangMap)
    (repos : List RepoSummary) :
    analyzeWithClone analyzeRepo repos =
      (foldMergeLanguageBytes (repos.filterMap (fun r => (analyzeRepo r).toOption)),
        repos.filterMap (fun r =>
          match analyzeRepo r with
          | .error e => some ⟨r.full_name, redactToken e⟩
          | .ok _ => none)) := by
  rw [analyzeWithClone, foldMergeLanguageBytes, analyzeWithClone_aux]
  simp

theorem takeWhile_ne_at {tok : Str} (suf : Str) (h : ∀ c ∈ tok, c ≠ '@') :
    (tok ++ '@' :: suf).takeWhile (· ≠ '@') = tok ∧
      (tok ++ '@' :: suf).dropWhile (· ≠ '@') = '@' :: suf := by
  induction tok with
  | nil => simp [List.takeWhile_cons, List.dropWhile_cons]
  | cons c cs ih =>
    have hc : c ≠ '@' := h c (by simp)
    obtain ⟨ht, hd⟩ := ih (fun x hx => h x (by simp [hx]))
    constructor
    · rw [List.cons_append, List.takeWhile_cons, if_pos (by simpa using hc), ht]
    · rw [List.cons_append, List.dropWhile_cons, if_pos (by simpa using hc), hd]

theorem redactToken_cons_not_xat {c : Char} {rest : Str}
    (h : startsWithStr xatStr (c :: rest) = false) :
    redactToken (c :: rest) = c :: redactToken rest := by
  rw [redactToken.eq_def]
  simp only [h]
  simp

theorem redactToken_at_sign (suf : Str) :
    redactToken ('@' :: suf) = '@' :: redactToken suf := by
  apply redactToken_cons_not_xat
  simp [startsWithStr, xatStr]

theorem redactToken_at {tok suf : Str} (h1 : tok ≠ []) (h2 : ∀ c ∈ tok, c ≠ '@') :
    redactToken (xatStr ++ (tok ++ '@' :: suf)) =
      xatStr ++ stars ++ '@' :: redactToken suf := by
  obtain ⟨ht, hd⟩ := takeWhile_ne_at suf h2
  have hxat : startsWithStr xatStr (xatStr ++ (tok ++ '@' :: suf)) = true :=
    startsWithStr_self_append _ _
  have hdrop : (xatStr ++ (tok ++ '@' :: suf)).drop 15 = tok ++ '@' :: suf :=
    List.drop_left' (by rfl)
  rw [show (xatStr ++ (tok ++ '@' :: suf) : Str) =
    'x' :: ("-access-token:".toList ++ (tok ++ '@' :: suf)) from rfl]
  rw [redactToken.eq_def]
  simp only [show startsWithStr xatStr
      ('x' :: ("-access-token:".toList ++ (tok ++ '@' :: suf))) = true from hxat]
  rw [show ('x' :: ("-access-token:".toList ++ (tok ++ '@' :: suf)) : Str).drop 15 =
      tok ++ '@' :: suf from hdrop]
  rw [ht, hd]
  rw [if_pos trivial, if_neg (by simpa using h1)]
  rw [redactToken_at_sign]

theorem redactToken_append_clean :
    ∀ (pre : Str) {tok suf : Str}, tok ≠ [] → (∀ c ∈ tok, c ≠ '@') →
      containsStr xatStr
        ((pre ++ xatStr ++ tok ++ '@' :: suf).take (pre.length + 14)) = false →
      redactToken (pre ++ xatStr ++ tok ++ '@' :: suf) =
        pre ++ xatStr ++ stars ++ '@' :: redactToken suf := by
  intro pre
  induction pre with
  | nil =>
    intro tok suf h1 h2 _
    simpa using redactToken_at h1 h2
  | cons c pre' ih =>
    intro tok suf h1 h2 hclean
    have hsw : startsWithStr xatStr (c :: (pre' ++ xatStr ++ tok ++ '@' :: suf)) =
        false := by
      cases hx : startsWithStr xatStr (c :: (pre' ++ xatStr ++ tok ++ '@' :: suf)) with
      | false => rfl
      | true =>
        exfalso
        obtain ⟨t, hts⟩ := startsWithStr_iff.1 hx
        have hlen : (15 : Nat) ≤ (c :: pre').length + 14 := by
          simp only [List.length_cons]
          omega
        have harith : (c :: pre').length + 14 - 15 = pre'.length := by
          simp only [List.length_cons]
          omega
        have htake : ((c :: pre') ++ xatStr ++ tok ++ '@' :: suf).take
            ((c :: pre').length + 14) = xatStr ++ t.take pre'.length := by
          have heq : ((c :: pre') ++ xatStr ++ tok ++ '@' :: suf : Str) = xatStr ++ t := by
            simpa using hts
          rw [heq, List.take_append_eq_append_take,
            List.take_of_length_le (by
              have hx15 : (xatStr : Str).length = 15 := rfl
              simp only [hx15, List.length_cons] at hlen ⊢
              omega)]
          rw [show (xatStr : Str).length = 15 from rfl, harith]
        rw [htake] at hclean
        have hcon : containsStr xatStr (xatStr ++ t.take pre'.length) = true :=
          containsStr_of_startsWith (startsWithStr_self_append _ _)
        simp [hcon] at hclean
    have hstep : redactToken ((c :: pre') ++ xatStr ++ tok ++ '@' :: suf) =
        c :: redactToken (pre' ++ xatStr ++ tok ++ '@' :: suf) := by
      have := @redactToken_cons_not_xat c (pre' ++ xatStr ++ tok ++ '@' :: suf) (by
        simpa using hsw)
      simpa using this
    have hclean' : containsStr xatStr
        ((pre' ++ xatStr ++ tok ++ '@' :: suf).take (pre'.length + 14)) = false := by
      have hrw : ((c :: pre') ++ xatStr ++ tok ++ '@' :: suf).take
          ((c :: pre').length + 14) =
          c :: (pre' ++ xatStr ++ tok ++ '@' :: suf).take (pre'.length + 14) := by
        simp [List.take_cons]
      rw [hrw, containsStr_cons] at hclean
      cases hx : containsStr xatStr ((pre' ++ xatStr ++ tok ++ '@' :: suf).take
          (pre'.length + 14)) with
      | false => rfl
      | true =>
        rw [hx] at hclean
        simp at hclean
    rw [hstep, ih h1 h2 hclean']
    rfl

theorem jsLookup_setKey_self (m : LangMap) (k : Str) (v : Int) :
    jsLookup (setKey m k v) k = some v := by
  induction m with
  | nil => simp [setKey, jsLookup]
  | cons e rest ih =>
    obtain ⟨k0, v0⟩ := e
    by_cases h0 : k0 = k
    · subst h0
      simp [setKey, jsLookup]
    · simp [setKey, jsLookup, h0, ih]

theorem jsLookup_setKey_ne (m : LangMap) {k k' : Str} (v : Int) (h : ¬ k' = k) :
    jsLookup (setKey m k v) k' = jsLookup m k' := by
  have hkk : ¬ k = k' := fun hh => h hh.symm
  induction m with
  | nil => simp [setKey, jsLookup, hkk]
  | cons e rest ih =>
    obtain ⟨k0, v0⟩ := e
    by_cases h0 : k0 = k
    · subst h0
      simp [setKey, jsLookup, hkk]
    · simp only [setKey, if_neg h0, jsLookup]
      split <;> simp_all

theorem parseLinguist_eq_foldl (parsed : List (Str × JsValue)) :
    parseLinguistJsonToLanguageBytes parsed = parsed.foldl linguistStep [] := by
  rw [parseLinguistJsonToLanguageBytes]
  congr 1

theorem jsLookup_not_mem {A : Type} : ∀ (m : List (Str × A)) (k : Str),
    k ∉ m.map Prod.fst → jsLookup m k = none
  | [], _, _ => rfl
  | (k0, v0) :: rest, k, h => by
    rw [jsLookup]
    rw [if_neg (fun hf => h (by rw [hf]; exact List.mem_cons_self _ _))]
    exact jsLookup_not_mem rest k (fun hm => h (List.mem_cons_of_mem _ hm))

theorem jsLookup_linguistFold_aux (lang : Str) :
    ∀ (fields : List (Str × JsValue)) (acc : LangMap),
      (fields.map Prod.fst).Nodup →
      jsLookup (fields.foldl linguistStep acc) lang =
        match jsLookup fields lang with
        | none => jsLookup acc lang
        | some v =>
          match linguistEntryValue v with
          | some n => some n
          | none => jsLookup acc lang := by
  intro fields
  induction fields with
  | nil => intro acc _; rfl
  | cons e rest ih =>
    intro acc hnodup
    obtain ⟨k0, v0⟩ := e
    rw [show (((k0, v0) :: rest : List (Str × JsValue)).map Prod.fst) =
      k0 :: rest.map Prod.fst from rfl] at hnodup
    have hnd : (rest.map Prod.fst).Nodup := (List.nodup_cons.1 hnodup).2
    have hk0 : k0 ∉ rest.map Prod.fst := (List.nodup_cons.1 hnodup).1
    rw [List.foldl_cons, ih (linguistStep acc (k0, v0)) hnd]
    by_cases hk : k0 = lang
    · subst hk
      have hrest : jsLookup rest k0 = (none : Option JsValue) :=
        jsLookup_not_mem rest k0 hk0
      rw [hrest]
      rw [show jsLookup ((k0, v0) :: rest) k0 = some v0 by simp [jsLookup]]
      cases hv : linguistEntryValue v0 with
      | some n =>
        rw [show linguistStep acc (k0, v0) = setKey acc k0 n by
          simp [linguistStep, hv]]
        simp [hv, jsLookup_setKey_self]
      | none =>
        rw [show linguistStep acc (k0, v0) = acc by simp [linguistStep, hv]]
        simp [hv]
    · rw [show jsLookup ((k0, v0) :: rest) lang = jsLookup rest lang by
        simp [jsLookup, hk]]
      have hstep : jsLookup (linguistStep acc (k0, v0)) lang = jsLookup acc lang := by
        rw [linguistStep]
        cases hv : linguistEntryValue v0 with
        | some n => exact jsLookup_setKey_ne acc n (fun hh => hk hh.symm)
        | none => rfl
      cases hr : jsLookup rest lang with
      | none => simpa using hstep
      | some v =>
        cases hv : linguistEntryValue v with
        | some n => simp [hv]
        | none => simpa [hv] using hstep

theorem jsLookup_parseLinguist (fields : List (Str × JsValue)) (lang : Str)
    (hnodup : (fields.map Prod.fst).Nodup) :
    jsLookup (parseLinguistJsonToLanguageBytes fields) lang =
      (jsLookup fields lang).bind linguistEntryValue := by
  rw [parseLinguist_eq_foldl, jsLookup_linguistFold_aux lang fields [] hnodup]
  cases hf : jsLookup fields lang with
  | none => rfl
  | some v =>
    cases hv : linguistEntryValue v with
    | some n => simp [hv]
    | none => simp [hv, jsLookup]

theorem byCountDesc_trans : ∀ (a b c : Str × Int),
    byCountDesc a b = true → byCountDesc b c = true → byCountDesc a c = true := by
  intro a b c hab hbc
  simp only [byCountDesc, decide_eq_true_eq] at *
  omega

theorem byCountDesc_total : ∀ (a b : Str × Int),
    (byCountDesc a b || byCountDesc b a) = true := by
  intro a b
  simp only [byCountDesc, Bool.or_eq_true, decide_eq_true_eq]
  omega

theorem selectTopLanguage_spec {m : LangMap} {L : Str}
    (h : selectTopLanguage m = some L) :
    L ≠ [] ∧ ∃ v, (L, v) ∈ m ∧ ∀ e ∈ m, e.2 ≤ v := by
  rw [selectTopLanguage] at h
  cases hs : m.mergeSort byCountDesc with
  | nil => rw [hs] at h; simp at h
  | cons top tail =>
    rw [hs] at h
    simp only [List.head?_cons] at h
    by_cases hempty : top.1 = []
    · rw [if_pos hempty] at h
      exact absurd h (by simp)
    · rw [if_neg hempty] at h
      obtain rfl : top.1 = L := by simpa using h
      refine ⟨hempty, top.2, ?_, ?_⟩
      · have : top ∈ m.mergeSort byCountDesc := by
          rw [hs]
          simp
        simpa using List.mem_mergeSort.1 this
      · intro e he
        have hemem : e ∈ m.mergeSort byCountDesc := List.mem_mergeSort.2 he
        rw [hs] at hemem
        rcases List.mem_cons.1 hemem with rfl | htail
        · simp
        · have hsorted := List.sorted_mergeSort
            (fun a b c => byCountDesc_trans a b c)
            (fun a b => byCountDesc_total a b) m
          rw [hs] at hsorted
          have := (List.pairwise_cons.1 hsorted).1 e htail
          simpa [byCountDesc] using this

theorem isNonBrace_ne {c : Char} (h : isNonBrace c = true) : ¬ c = '{' := by
  intro hc
  subst hc
  exact absurd h (by decide)

theorem firstBraceMatch_cons_nonbrace {c : Char} (rest : Str) (h : isNonBrace c = true) :
    firstBraceMatch (c :: rest) =
      (firstBraceMatch rest).map (fun x => (c :: x.1, x.2.1, x.2.2)) := by
  rw [firstBraceMatch, if_neg (isNonBrace_ne h)]

theorem firstBraceMatch_none {s : Str} (h : ∀ c ∈ s, isNonBrace c = true) :
    firstBraceMatch s = none := by
  induction s with
  | nil => rfl
  | cons c cs ih =>
    rw [firstBraceMatch_cons_nonbrace cs (h c (by simp)),
      ih (fun x hx => h x (by simp [hx]))]
    rfl

theorem takeWhile_nonbrace {inner : Str} (sfx : Str)
    (hi : ∀ c ∈ inner, isNonBrace c = true) :
    (inner ++ '}' :: sfx).takeWhile isNonBrace = inner ∧
      (inner ++ '}' :: sfx).dropWhile isNonBrace = '}' :: sfx := by
  induction inner with
  | nil => simp [List.takeWhile_cons, List.dropWhile_cons, isNonBrace]
  | cons c cs ih =>
    have hc : isNonBrace c = true := hi c (by simp)
    obtain ⟨ht, hd⟩ := ih (fun x hx => hi x (by simp [hx]))
    constructor
    · rw [List.cons_append, List.takeWhile_cons, if_pos hc, ht]
    · rw [List.cons_append, List.dropWhile_cons, if_pos hc, hd]

theorem firstBraceMatch_open {rest inner' after : Str}
    (hd : rest.dropWhile isNonBrace = '}' :: after)
    (ht : rest.takeWhile isNonBrace = inner') (hne : inner' ≠ []) :
    firstBraceMatch ('{' :: rest) = some ([], inner', after) := by
  rw [firstBraceMatch, if_pos rfl, hd, ht]
  split
  · rename_i x h1 h2
    injection h2 with _ hafter
    subst hafter
    rw [if_neg hne]
  · rename_i h1 h2
    exact absurd rfl (h2 after)

theorem firstBraceMatch_at {pfx inner : Str} (sfx : Str)
    (hp : ∀ c ∈ pfx, isNonBrace c = true) (hi : ∀ c ∈ inner, isNonBrace c = true)
    (hne : inner ≠ []) :
    firstBraceMatch (pfx ++ '{' :: (inner ++ '}' :: sfx)) = some (pfx, inner, sfx) := by
  induction pfx with
  | nil =>
    obtain ⟨ht, hd⟩ := takeWhile_nonbrace sfx hi
    rw [List.nil_append]
    exact firstBraceMatch_open hd ht hne
  | cons c pfx' ih =>
    rw [List.cons_append, firstBraceMatch_cons_nonbrace _ (hp c (by simp))]
    rw [ih (fun x hx => hp x (by simp [hx]))]
    rfl

theorem jsReplaceFirst_cons_no {pat repl : Str} {c : Char} {rest : Str}
    (h : startsWithStr pat (c :: rest) = false) :
    jsReplaceFirst pat repl (c :: rest) = c :: jsReplaceFirst pat repl rest := by
  rw [jsReplaceFirst, if_neg (by simp [h])]

theorem jsReplaceFirst_at {pfx : Str} (inner sfx r : Str)
    (hp : ∀ c ∈ pfx, isNonBrace c = true) :
    jsReplaceFirst ('{' :: (inner ++ ['}'])) r (pfx ++ '{' :: (inner ++ '}' :: sfx)) =
      pfx ++ r ++ sfx := by
  induction pfx with
  | nil =>
    have hshape : ('{' :: (inner ++ '}' :: sfx) : Str) =
        ('{' :: (inner ++ ['}'])) ++ sfx := by simp
    have hsw : startsWithStr ('{' :: (inner ++ ['}'])) ('{' :: (inner ++ '}' :: sfx)) =
        true := by
      rw [hshape]
      exact startsWithStr_self_append _ _
    rw [List.nil_append, jsReplaceFirst, if_pos (by simp [hsw])]
    rw [List.nil_append]
    congr 1
    rw [hshape, List.drop_left]
  | cons c pfx' ih =>
    have hc : ¬ ('{' = c) := fun hh => isNonBrace_ne (hp c (by simp)) hh.symm
    have hsw : startsWithStr ('{' :: (inner ++ ['}']))
        (c :: (pfx' ++ '{' :: (inner ++ '}' :: sfx))) = false := by
      simp [startsWithStr, hc]
    rw [List.cons_append, jsReplaceFirst_cons_no hsw,
      ih (fun x hx => hp x (by simp [hx]))]
    rfl

theorem containsStr_arrow_of_shape (a b : Str) :
    containsStr arrowStr (a ++ '=' :: '>' :: b) = true :=
  containsStr_iff.2 ⟨a, b, by simp [arrowStr]⟩

theorem normalizeGitPath_plain {s : Str} (h : containsStr arrowStr (jsTrim s) = false) :
    normalizeGitPath s = jsTrim s := by
  simp [normalizeGitPath, h]

theorem normalizeGitPath_braceless {old new : Str}
    (hoa : containsStr arrowStr old = false) (hna : containsStr arrowStr new = false)
    (hob : ∀ c ∈ old, isNonBrace c = true) (hnb : ∀ c ∈ new, isNonBrace c = true)
    (htn : jsTrim new = new) (hne : new ≠ [])
    (hti : jsTrim (old ++ ' ' :: '=' :: '>' :: ' ' :: new) =
      old ++ ' ' :: '=' :: '>' :: ' ' :: new) :
    normalizeGitPath (old ++ ' ' :: '=' :: '>' :: ' ' :: new) = new := by
  have harr : containsStr arrowStr (old ++ ' ' :: '=' :: '>' :: ' ' :: new) = true := by
    have := containsStr_arrow_of_shape (old ++ [' ']) (' ' :: new)
    simpa using this
  have hall : ∀ c ∈ (old ++ ' ' :: '=' :: '>' :: ' ' :: new : Str),
      isNonBrace c = true := by
    intro c hc
    rcases List.mem_append.1 hc with hc | hc
    · exact hob c hc
    · rcases hc with _ | ⟨_, (_ | ⟨_, (_ | ⟨_, (_ | ⟨_, hc⟩)⟩)⟩)⟩
      · decide
      · decide
      · decide
      · decide
      · exact hnb c hc
  have hfbm : firstBraceMatch (old ++ ' ' :: '=' :: '>' :: ' ' :: new) = none :=
    firstBraceMatch_none hall
  have hsplit : splitOnArrow (old ++ ' ' :: '=' :: '>' :: ' ' :: new) =
      [old ++ [' '], ' ' :: new] := by
    rw [splitOnArrow_append_sep (' ' :: new) hoa,
      splitOnArrow_of_arrowFree (containsStr_arrow_cons_space hna)]
  have hright : jsTrim (' ' :: new) = new := by
    rw [jsTrim_cons_ws new (by decide), htn]
  simp only [normalizeGitPath, hti, harr, hfbm, hsplit, hright]
  simp [hne, hright]

theorem normalizeGitPath_brace {pfx old new sfx : Str}
    (hpb : ∀ c ∈ pfx, isNonBrace c = true) (hob : ∀ c ∈ old, isNonBrace c = true)
    (hnb : ∀ c ∈ new, isNonBrace c = true)
    (hoa : containsStr arrowStr old = false) (hna : containsStr arrowStr new = false)
    (htn : jsTrim new = new) (hne : new ≠ [])
    (hti : jsTrim (pfx ++ '{' :: (old ++ ' ' :: '=' :: '>' :: ' ' :: new ++ '}' :: sfx)) =
      pfx ++ '{' :: (old ++ ' ' :: '=' :: '>' :: ' ' :: new ++ '}' :: sfx)) :
    normalizeGitPath (pfx ++ '{' :: (old ++ ' ' :: '=' :: '>' :: ' ' :: new ++ '}' :: sfx)) =
      collapseDoubleSlash (pfx ++ new ++ sfx) := by
  have hinner : ∀ c ∈ (old ++ ' ' :: '=' :: '>' :: ' ' :: new : Str),
      isNonBrace c = true := by
    intro c hc
    rcases List.mem_append.1 hc with hc | hc
    · exact hob c hc
    · rcases hc with _ | ⟨_, (_ | ⟨_, (_ | ⟨_, (_ | ⟨_, hc⟩)⟩)⟩)⟩
      · decide
      · decide
      · decide
      · decide
      · exact hnb c hc
  have hinne : (old ++ ' ' :: '=' :: '>' :: ' ' :: new : Str) ≠ [] := by
    simp
  have harr : containsStr arrowStr
      (pfx ++ '{' :: (old ++ ' ' :: '=' :: '>' :: ' ' :: new ++ '}' :: sfx)) = true := by
    have := containsStr_arrow_of_shape (pfx ++ '{' :: (old ++ [' ']))
      (' ' :: new ++ '}' :: sfx)
    simpa using this
  have hfbm : firstBraceMatch
      (pfx ++ '{' :: (old ++ ' ' :: '=' :: '>' :: ' ' :: new ++ '}' :: sfx)) =
      some (pfx, old ++ ' ' :: '=' :: '>' :: ' ' :: new, sfx) := by
    have := @firstBraceMatch_at pfx
      (old ++ ' ' :: '=' :: '>' :: ' ' :: new) sfx hpb hinner hinne
    simpa using this
  have hsplit : splitOnArrow (old ++ ' ' :: '=' :: '>' :: ' ' :: new) =
      [old ++ [' '], ' ' :: new] := by
    rw [splitOnArrow_append_sep (' ' :: new) hoa,
      splitOnArrow_of_arrowFree (containsStr_arrow_cons_space hna)]
  have hright : jsTrim (' ' :: new) = new := by
    rw [jsTrim_cons_ws new (by decide), htn]
  have hrepl : jsReplaceFirst ('{' :: (old ++ ' ' :: '=' :: '>' :: ' ' :: (new ++ ['}'])))
      new (pfx ++ '{' :: (old ++ ' ' :: '=' :: '>' :: ' ' :: (new ++ '}' :: sfx))) =
      pfx ++ (new ++ sfx) := by
    have := @jsReplaceFirst_at pfx
      (old ++ ' ' :: '=' :: '>' :: ' ' :: new) sfx new hpb
    simpa using this
  simp only [normalizeGitPath, hti, harr, hfbm, hsplit, hright]
  simp [hne, hright, hrepl]

theorem redactToken_nil : redactToken [] = [] := by
  rw [redactToken.eq_def]

theorem redactToken_no_x {s : Str} (h : ∀ c ∈ s, ¬ c = 'x') : redactToken s = s := by
  induction s with
  | nil => exact redactToken_nil
  | cons c cs ih =>
    have hcx : ¬ ('x' = c) := fun hh => h c (by simp) hh.symm
    rw [redactToken_cons_not_xat (by simp [xatStr, startsWithStr, hcx])]
    rw [ih (fun x hx => h x (by simp [hx]))]

theorem splitLinesCh_cons {c : Char} (cs : Str) (h1 : c ≠ '\n') (h2 : c ≠ '\r') :
    splitLinesCh (c :: cs) = consHead c (splitLinesCh cs) := by
  rw [splitLinesCh.eq_def]
  split <;> simp_all

theorem splitLinesCh_single {l : Str} (h : ∀ c ∈ l, c ≠ '\n' ∧ c ≠ '\r') :
    splitLinesCh l = [l] := by
  induction l with
  | nil => rfl
  | cons c cs ih =>
    rw [splitLinesCh_cons cs (h c (by simp)).1 (h c (by simp)).2,
      ih (fun x hx => h x (by simp [hx]))]
    rfl

theorem splitTab_three {a d p : Str}
    (ha : ∀ c ∈ a, c ≠ '\t') (hd : ∀ c ∈ d, c ≠ '\t') (hp : ∀ c ∈ p, c ≠ '\t') :
    splitOnChar '\t' (a ++ '\t' :: (d ++ '\t' :: p)) = [a, d, p] := by
  rw [splitOnChar_append_sep _ ha, splitOnChar_append_sep _ hd, splitOnChar_sep_free hp]

theorem numstatLineStep_wellformed {a d p : Str} (m : LangMap)
    (ha : ∀ c ∈ a, c ≠ '\t') (hdt : ∀ c ∈ d, c ≠ '\t') (hpt : ∀ c ∈ p, c ≠ '\t')
    (hp : p ≠ []) {av dv : Int} (hna : jsNumber a = some av)
    (hnd : jsNumber d = some dv) :
    numstatLineStep m (a ++ '\t' :: (d ++ '\t' :: p)) =
      bump m (normalizeGitPath p) (av + dv) := by
  have htab : containsStr ['\t'] (a ++ '\t' :: (d ++ '\t' :: p)) = true :=
    containsStr_iff.2 ⟨a, d ++ '\t' :: p, by simp⟩
  rw [numstatLineStep, if_neg (by simp [htab])]
  simp only [splitTab_three ha hdt hpt]
  simp [jsNumberU, hna, hnd, hp]

theorem numstatLineStep_nonnumeric {a d p : Str} (m : LangMap)
    (ha : ∀ c ∈ a, c ≠ '\t') (hdt : ∀ c ∈ d, c ≠ '\t') (hpt : ∀ c ∈ p, c ≠ '\t')
    (h : jsNumber a = none ∨ jsNumber d = none) :
    numstatLineStep m (a ++ '\t' :: (d ++ '\t' :: p)) = m := by
  have htab : containsStr ['\t'] (a ++ '\t' :: (d ++ '\t' :: p)) = true :=
    containsStr_iff.2 ⟨a, d ++ '\t' :: p, by simp⟩
  rw [numstatLineStep, if_neg (by simp [htab])]
  simp only [splitTab_three ha hdt hpt]
  by_cases hpe : p = []
  · simp [hpe]
  · rcases h with h | h <;> simp [jsNumberU, h, hpe]

theorem numstatLineStep_missing_path {a d : Str} (m : LangMap)
    (ha : ∀ c ∈ a, c ≠ '\t') (hdt : ∀ c ∈ d, c ≠ '\t') :
    numstatLineStep m (a ++ '\t' :: d) = m ∧
      numstatLineStep m (a ++ '\t' :: (d ++ ['\t'])) = m := by
  constructor
  · have htab : containsStr ['\t'] (a ++ '\t' :: d) = true :=
      containsStr_iff.2 ⟨a, d, by simp⟩
    rw [numstatLineStep, if_neg (by simp [htab])]
    rw [splitOnChar_append_sep _ ha, splitOnChar_sep_free hdt]
    rfl
  · have htab : containsStr ['\t'] (a ++ '\t' :: (d ++ ['\t'])) = true :=
      containsStr_iff.2 ⟨a, d ++ ['\t'], by simp⟩
    rw [numstatLineStep, if_neg (by simp [htab])]
    rw [splitOnChar_append_sep _ ha,
      show (d ++ ['\t'] : Str) = d ++ '\t' :: [] from rfl,
      splitOnChar_append_sep _ hdt]
    rfl

/-! ## Claim theorems -/

/-- C1: for every raw log text and author-pattern set,
`parseNumstatOutputForAuthors` counts a commit's data lines into the
returned path-churn map iff no (normalized) patterns are given or at least
one pattern is a substring of the commit's lower-cased, space-joined
author name+email; the result equals the plain per-line accumulation over
exactly the preamble (when no patterns are given) and the bodies of the
included commits, so all data lines of an excluded commit contribute
nothing to the map. -/
theorem spec_C1_author_filter (output : Str) (authorPatterns : Option (List Str)) :
    parseNumstatOutputForAuthors output authorPatterns =
      (includedDataLines (normalizeAuthorPatterns authorPatterns)
        (splitLinesCh output)).foldl numstatLineStep [] := by
  simp only [parseNumstatOutputForAuthors]
  rw [foldl_authorStep_eq]
  rfl

/-- C10: for every input text, `parseNumstatOutputForAuthors` called with
no author patterns — the argument `undefined`, an empty list, or a list
whose entries are all blank after trimming — returns exactly the same
path-churn map as `parseNumstatOutput` on the same text (marker lines
contribute nothing in either parser). -/
theorem spec_C10_no_patterns (output : Str) (authorPatterns : Option (List Str))
    (h : authorPatterns = none ∨ authorPatterns = some [] ∨
      ∃ l, authorPatterns = some l ∧ ∀ pat ∈ l, jsTrim pat = []) :
    parseNumstatOutputForAuthors output authorPatterns = parseNumstatOutput output := by
  have hnorm : normalizeAuthorPatterns authorPatterns = [] := by
    rcases h with rfl | rfl | ⟨l, rfl, hl⟩
    · rfl
    · rfl
    · simp only [normalizeAuthorPatterns]
      apply List.filter_eq_nil_iff.2
      intro a ha
      obtain ⟨v, hv, rfl⟩ := List.mem_map.1 ha
      simp [jsToLower, hl v hv]
  simp only [parseNumstatOutputForAuthors, hnorm]
  rw [show ([] : List Str).isEmpty = true from rfl]
  rw [foldl_authorStep_nil_patterns]
  rfl

theorem spec_C10_witness :
    parseNumstatOutputForAuthors
        "@@@h\tAlice\ta@b.io\n1\t2\tsrc/f.ts".toList (some [" ".toList, "".toList]) =
      parseNumstatOutput "@@@h\tAlice\ta@b.io\n1\t2\tsrc/f.ts".toList :=
  spec_C10_no_patterns _ _
    (Or.inr (Or.inr ⟨[" ".toList, "".toList], rfl, by decide⟩))

/-- C7: merging per-repository `LanguageByteMap`s with `mergeLanguageBytes`
is order-independent: folding any permutation of a finite collection of
maps into an empty accumulator yields the same totals map (same lookup at
every key), so the final totals are independent of completion order. -/
theorem spec_C7_merge_order (ms ms' : List LangMap) (h : ms.Perm ms') (k : Str) :
    jsLookup (foldMergeLanguageBytes ms) k = jsLookup (foldMergeLanguageBytes ms') k := by
  rw [jsLookup_foldMerge, jsLookup_foldMerge]
  have hany : ms.any (fun m => hasKey m k) = ms'.any (fun m => hasKey m k) := by
    cases hx : ms'.any (fun m => hasKey m k) with
    | true =>
      obtain ⟨mm, hmm, hmk⟩ := List.any_eq_true.1 hx
      exact List.any_eq_true.2 ⟨mm, h.mem_iff.2 hmm, hmk⟩
    | false =>
      apply List.any_eq_false.2
      intro mm hmm
      exact List.any_eq_false.1 hx mm (h.mem_iff.1 hmm)
  have hsum : (ms.map (fun m => sumAt m k)).sum = (ms'.map (fun m => sumAt m k)).sum :=
    (h.map (fun m => sumAt m k)).sum_eq
  rw [hany, hsum]

theorem spec_C7_witness :
    jsLookup (foldMergeLanguageBytes
      [[("TypeScript".toList, 12)], [("Go".toList, 3), ("TypeScript".toList, 2)]])
      "TypeScript".toList =
    jsLookup (foldMergeLanguageBytes
      [[("Go".toList, 3), ("TypeScript".toList, 2)], [("TypeScript".toList, 12)]])
      "TypeScript".toList :=
  spec_C7_merge_order _ _ (List.Perm.swap _ _ _) _

/-- C2 (amended): for every repository list and injected per-repository
analysis, `analyzeWithClone`'s totals equal the merge of exactly the
successful repositories' results, and `skippedRepositories` contains
exactly one entry per failing repository, naming its full name with a
reason equal to the thrown error message after credential redaction (the
claim's "reason containing the thrown error message" holds whenever the
message carries no `x-access-token:` credential); a failure neither aborts
the batch nor affects other repositories' contributions. -/
theorem spec_C2_partial_failure (analyzeRepo : RepoSummary → Except Str LangMap)
    (repos : List RepoSummary) :
    (analyzeWithClone analyzeRepo repos).1 =
      foldMergeLanguageBytes (repos.filterMap (fun r => (analyzeRepo r).toOption)) ∧
    (analyzeWithClone analyzeRepo repos).2 =
      repos.filterMap (fun r =>
        match analyzeRepo r with
        | .error e => some ⟨r.full_name, redactToken e⟩
        | .ok _ => none) := by
  rw [analyzeWithClone_spec]
  exact ⟨rfl, rfl⟩

theorem spec_C2_counterexample :
    ((analyzeWithClone (fun _ => Except.error "x-access-token:secret@host".toList)
        [⟨"org/b".toList⟩]).2.map SkippedRepo.reason =
      [redactToken "x-access-token:secret@host".toList]) ∧
    redactToken "x-access-token:secret@host".toList =
      "x-access-token:***@host".toList ∧
    containsStr "x-access-token:secret@host".toList
      "x-access-token:***@host".toList = false := by
  refine ⟨rfl, ?_, by decide⟩
  have h1 : ("x-access-token:secret@host".toList : Str) =
      xatStr ++ ("secret".toList ++ '@' :: "host".toList) := by decide
  rw [h1, redactToken_at (by decide) (by decide)]
  rw [redactToken_no_x (s := "host".toList) (by decide)]
  decide

/-- C8 (amended): in windowed (past-week) analysis, only entries with
positive churn whose cache-assisted language resolves to a nonempty name
contribute to the returned `LanguageByteMap` (filtering the path-churn map
to the contributing entries leaves the result unchanged, so a dropped or
unresolved path's churn is discarded rather than attributed); the sum of
the returned map's values equals the sum over exactly the contributing
entries and hence never exceeds the sum of the positive entries of the
path-churn map. -/
theorem spec_C8_churn_totals :
    (∀ (persisted : List (Str × Str)) (resolver : Str → Option Str)
      (output : Str) (pats : Option (List Str)),
      analyzeRepoPastWeekTotals persisted resolver output pats =
        computeChurnTotals persisted resolver
          (parseNumstatOutputForAuthors output pats)) ∧
    (∀ (persisted : List (Str × Str)) (resolver : Str → Option Str) (pc : LangMap),
      computeChurnTotals persisted resolver pc =
        computeChurnTotals persisted resolver
          (pc.filter (churnContributes persisted resolver))) ∧
    (∀ (persisted : List (Str × Str)) (resolver : Str → Option Str) (pc : LangMap),
      sumValues (computeChurnTotals persisted resolver pc) =
        ((pc.filter (churnContributes persisted resolver)).map Prod.snd).sum) ∧
    (∀ (persisted : List (Str × Str)) (resolver : Str → Option Str) (pc : LangMap),
      sumValues (computeChurnTotals persisted resolver pc) ≤
        ((pc.filter (fun e => decide (0 < e.2))).map Prod.snd).sum) := by
  refine ⟨fun _ _ _ _ => rfl, computeChurnTotals_filter, sumValues_computeChurnTotals, ?_⟩
  intro persisted resolver pc
  rw [sumValues_computeChurnTotals]
  apply sum_map_filter_mono
  · exact fun a ha => churnContributes_pos ha
  · intro a ha
    simp only [decide_eq_true_eq] at ha
    omega

theorem spec_C8_counterexample :
    ¬ (sumValues (analyzeRepoPastWeekTotals [] (fun _ => none)
        "-5\t0\tp".toList none) ≤
      sumValues (parseNumstatOutputForAuthors "-5\t0\tp".toList none)) := by
  decide

/-- C4: `parseNumstatOutput` folds its per-line step over the
`\r?\n`-split lines; a well-formed data line `<added>\t<deleted>\t<path>`
accumulates `added + deleted` under the normalized path, so two lines
touching the same normalized path sum across both; lines whose added or
deleted field is non-numeric are skipped, lines with a missing (or empty)
path are skipped, and blank lines are ignored. -/
theorem spec_C4_numstat_accumulation :
    (∀ output, parseNumstatOutput output =
      (splitLinesCh output).foldl numstatLineStep []) ∧
    (∀ (m : LangMap) (a d p : Str) (av dv : Int),
      (∀ c ∈ a, c ≠ '\t') → (∀ c ∈ d, c ≠ '\t') → (∀ c ∈ p, c ≠ '\t') →
      p ≠ [] → jsNumber a = some av → jsNumber d = some dv →
      numstatLineStep m (a ++ '\t' :: (d ++ '\t' :: p)) =
        bump m (normalizeGitPath p) (av + dv)) ∧
    (∀ (m : LangMap) (a d p : Str),
      (∀ c ∈ a, c ≠ '\t') → (∀ c ∈ d, c ≠ '\t') → (∀ c ∈ p, c ≠ '\t') →
      (jsNumber a = none ∨ jsNumber d = none) →
      numstatLineStep m (a ++ '\t' :: (d ++ '\t' :: p)) = m) ∧
    (∀ (m : LangMap) (a d : Str),
      (∀ c ∈ a, c ≠ '\t') → (∀ c ∈ d, c ≠ '\t') →
      numstatLineStep m (a ++ '\t' :: d) = m ∧
        numstatLineStep m (a ++ '\t' :: (d ++ ['\t'])) = m) ∧
    (∀ m : LangMap, numstatLineStep m [] = m) ∧
    (∀ (a1 d1 p1 a2 d2 p2 : Str) (av1 dv1 av2 dv2 : Int),
      (∀ c ∈ a1, c ≠ '\t') → (∀ c ∈ d1, c ≠ '\t') → (∀ c ∈ p1, c ≠ '\t') →
      (∀ c ∈ a2, c ≠ '\t') → (∀ c ∈ d2, c ≠ '\t') → (∀ c ∈ p2, c ≠ '\t') →
      p1 ≠ [] → p2 ≠ [] →
      (∀ c ∈ (a1 ++ '\t' :: (d1 ++ '\t' :: p1) : Str), c ≠ '\n' ∧ c ≠ '\r') →
      (∀ c ∈ (a2 ++ '\t' :: (d2 ++ '\t' :: p2) : Str), c ≠ '\n' ∧ c ≠ '\r') →
      jsNumber a1 = some av1 → jsNumber d1 = some dv1 →
      jsNumber a2 = some av2 → jsNumber d2 = some dv2 →
      normalizeGitPath p2 = normalizeGitPath p1 →
      jsLookup (parseNumstatOutput
          ((a1 ++ '\t' :: (d1 ++ '\t' :: p1)) ++ '\n' ::
            (a2 ++ '\t' :: (d2 ++ '\t' :: p2))))
        (normalizeGitPath p1) = some ((av1 + dv1) + (av2 + dv2))) := by
  refine ⟨fun _ => rfl, fun m a d p av dv ha hd hp hpe hna hnd =>
      numstatLineStep_wellformed m ha hd hp hpe hna hnd,
    fun m a d p ha hd hp h => numstatLineStep_nonnumeric m ha hd hp h,
    fun m a d ha hd => numstatLineStep_missing_path m ha hd,
    fun m => numstatLineStep_nil m, ?_⟩
  intro a1 d1 p1 a2 d2 p2 av1 dv1 av2 dv2 ha1 hd1 hp1 ha2 hd2 hp2 hpe1 hpe2
    hnl1 hnl2 hna1 hnd1 hna2 hnd2 hq
  rw [parseNumstatOutput, splitLinesCh_line_append _ hnl1, splitLinesCh_single hnl2]
  rw [List.foldl_cons, List.foldl_cons, List.foldl_nil]
  rw [numstatLineStep_wellformed [] ha1 hd1 hp1 hpe1 hna1 hnd1]
  rw [numstatLineStep_wellformed _ ha2 hd2 hp2 hpe2 hna2 hnd2]
  rw [hq]
  rw [show bump ([] : LangMap) (normalizeGitPath p1) (av1 + dv1) =
    [(normalizeGitPath p1, av1 + dv1)] from rfl]
  rw [show bump [(normalizeGitPath p1, av1 + dv1)] (normalizeGitPath p1) (av2 + dv2) =
    [(normalizeGitPath p1, (av1 + dv1) + (av2 + dv2))] by simp [bump]]
  simp [jsLookup]

theorem spec_C4_witness :
    numstatLineStep [] ("10".toList ++ '\t' :: ("2".toList ++ '\t' :: "a.ts".toList)) =
      bump [] (normalizeGitPath "a.ts".toList) (10 + 2) ∧
    numstatLineStep [] ("-".toList ++ '\t' :: ("-".toList ++ '\t' :: "bin".toList)) =
      [] ∧
    numstatLineStep [] ("1".toList ++ '\t' :: "2".toList) = [] ∧
    numstatLineStep ([] : LangMap) [] = [] ∧
    jsLookup (parseNumstatOutput
        (("3".toList ++ '\t' :: ("4".toList ++ '\t' :: "x.go".toList)) ++ '\n' ::
          ("5".toList ++ '\t' :: ("6".toList ++ '\t' :: "x.go".toList))))
      (normalizeGitPath "x.go".toList) = some ((3 + 4) + (5 + 6)) :=
  ⟨spec_C4_numstat_accumulation.2.1 [] _ _ _ 10 2 (by decide) (by decide) (by decide)
      (by decide) (by decide) (by decide),
    spec_C4_numstat_accumulation.2.2.1 [] _ _ _ (by decide) (by decide) (by decide)
      (Or.inl (by decide)),
    (spec_C4_numstat_accumulation.2.2.2.1 [] _ _ (by decide) (by decide)).1,
    spec_C4_numstat_accumulation.2.2.2.2.1 [],
    spec_C4_numstat_accumulation.2.2.2.2.2 _ _ _ _ _ _ 3 4 5 6 (by decide) (by decide)
      (by decide) (by decide) (by decide) (by decide) (by decide) (by decide)
      (by decide) (by decide) (by decide) (by decide) (by decide) (by decide) rfl⟩

/-- C5: history extension (`ensureHistoryForSince`) issues zero deepen
requests when the oldest commit's timestamp is already at or before the
cutoff; when the first deepen request fails it stops immediately after
that failure, issuing no further commands and returning normally rather
than raising; and when the cutoff timestamp is unparseable it skips
extension entirely, issuing no git commands at all.  The host `Date.parse`
is a parameter; the git subprocesses are an oracle. -/
theorem spec_C5_history_extension :
    (∀ (parseDate : Str → Option Int) (env : GitEnv) (sinceIso : Str)
      (cutoff t : Int) (out : Str),
      parseDate sinceIso = some cutoff → env.oldestOut 0 = some out →
      parseDate (jsTrim out) = some t → t ≤ cutoff →
      ensureHistoryForSince parseDate env sinceIso = ([.oldestQuery], true)) ∧
    (∀ (parseDate : Str → Option Int) (env : GitEnv) (sinceIso : Str)
      (cutoff : Int) (out : Str),
      parseDate sinceIso = some cutoff → env.oldestOut 0 = some out →
      (parseDate (jsTrim out) = none ∨
        ∀ t, parseDate (jsTrim out) = some t → cutoff < t) →
      env.deepenOk 0 = false →
      ensureHistoryForSince parseDate env sinceIso =
        ([.oldestQuery, .deepen 100], true)) ∧
    (∀ (parseDate : Str → Option Int) (env : GitEnv) (sinceIso : Str),
      parseDate sinceIso = none →
      ensureHistoryForSince parseDate env sinceIso = ([], true)) := by
  refine ⟨?_, ?_, ?_⟩
  · intro parseDate env sinceIso cutoff t out h1 h2 h3 h4
    rw [ensureHistoryForSince, h1, deepenSteps]
    show ensureHistoryLoop parseDate env cutoff [100, 300, 700, 1500] 0 =
      ([GitCmd.oldestQuery], true)
    rw [ensureHistoryLoop.eq_def]
    simp only [h2, h3]
    rw [if_pos (by simpa using h4)]
  · intro parseDate env sinceIso cutoff out h1 h2 h3 h4
    rw [ensureHistoryForSince, h1, deepenSteps]
    show ensureHistoryLoop parseDate env cutoff [100, 300, 700, 1500] 0 =
      ([GitCmd.oldestQuery, GitCmd.deepen 100], true)
    rw [ensureHistoryLoop.eq_def]
    simp only [h2]
    have hstop : (match parseDate (jsTrim out) with
        | some oldestMs => decide (oldestMs ≤ cutoff)
        | none => false) = false := by
      rcases h3 with h3 | h3
      · simp [h3]
      · cases hx : parseDate (jsTrim out) with
        | none => rfl
        | some t =>
          have := h3 t hx
          simp only [decide_eq_false_iff_not]
          omega
    simp only [hstop, Bool.false_eq_true, if_false, h4]
  · intro parseDate env sinceIso h1
    rw [ensureHistoryForSince, h1]

theorem spec_C5_witness :
    ensureHistoryForSince
        (fun s => if s = "C".toList then some 10 else
          if s = "O".toList then some 5 else none)
        ⟨fun _ => some "O".toList, fun _ => true⟩ "C".toList =
      ([.oldestQuery], true) ∧
    ensureHistoryForSince
        (fun s => if s = "C".toList then some 10 else none)
        ⟨fun _ => some "junk".toList, fun _ => false⟩ "C".toList =
      ([.oldestQuery, .deepen 100], true) ∧
    ensureHistoryForSince
        (fun _ => none) ⟨fun _ => some "O".toList, fun _ => true⟩ "bad".toList =
      ([], true) :=
  ⟨spec_C5_history_extension.1 _ _ _ 10 5 "O".toList (by decide) rfl (by decide)
      (by decide),
    spec_C5_history_extension.2.1 _ _ _ 10 "junk".toList (by decide) rfl
      (Or.inl (by decide)) rfl,
    spec_C5_history_extension.2.2 _ _ _ rfl⟩

/-- C9: every failure reason recorded in `skippedRepositories` by
`analyzeWithClone` is the redaction of the repository's thrown message;
every clone-failure error raised by the scratch-mode acquirer carries the
redacted message; and redaction replaces the credential-bearing portion of
an embedded `x-access-token` clone URL (the nonempty, `'@'`-free token
after the first clean occurrence of the marker) with the `***`
placeholder, so the credential never appears unredacted in error text
surfaced to the caller. -/
theorem spec_C9_redaction :
    (∀ (analyzeRepo : RepoSummary → Except Str LangMap) (repos : List RepoSummary)
      (entry : SkippedRepo), entry ∈ (analyzeWithClone analyzeRepo repos).2 →
      ∃ r msg, r ∈ repos ∧ analyzeRepo r = .error msg ∧
        entry = ⟨r.full_name, redactToken msg⟩) ∧
    (∀ (msg name : Str), prepareRepoDirectoryScratch (.error msg) ⟨name⟩ =
      .error ("Failed to clone ".toList ++ name ++ ": ".toList ++ redactToken msg)) ∧
    (∀ (pre tok suf : Str), tok ≠ [] → (∀ c ∈ tok, c ≠ '@') →
      containsStr xatStr
        ((pre ++ xatStr ++ tok ++ '@' :: suf).take (pre.length + 14)) = false →
      redactToken (pre ++ xatStr ++ tok ++ '@' :: suf) =
        pre ++ xatStr ++ stars ++ '@' :: redactToken suf) := by
  refine ⟨?_, fun _ _ => rfl, redactToken_append_clean⟩
  intro analyzeRepo repos entry hmem
  rw [analyzeWithClone_spec] at hmem
  obtain ⟨r, hr, hsome⟩ := List.mem_filterMap.1 hmem
  cases hf : analyzeRepo r with
  | ok m => rw [hf] at hsome; exact absurd hsome (by simp)
  | error e =>
    rw [hf] at hsome
    refine ⟨r, e, hr, hf, ?_⟩
    simpa using hsome.symm

theorem spec_C9_witness :
    (∃ r msg, r ∈ ([⟨"org/b".toList⟩] : List RepoSummary) ∧
      (fun (_ : RepoSummary) => Except.error (α := LangMap) "boom".toList) r =
        .error msg ∧
      (⟨"org/b".toList, redactToken "boom".toList⟩ : SkippedRepo) =
        ⟨r.full_name, redactToken msg⟩) ∧
    prepareRepoDirectoryScratch (.error "denied".toList) ⟨"org/a".toList⟩ =
      .error ("Failed to clone ".toList ++ "org/a".toList ++ ": ".toList ++
        redactToken "denied".toList) ∧
    redactToken ("git clone https://".toList ++ xatStr ++ "tok".toList ++
        '@' :: "github.com/a.git".toList) =
      "git clone https://".toList ++ xatStr ++ stars ++
        '@' :: redactToken "github.com/a.git".toList :=
  ⟨spec_C9_redaction.1 (fun _ => Except.error "boom".toList) [⟨"org/b".toList⟩]
      ⟨"org/b".toList, redactToken "boom".toList⟩ (List.mem_singleton.2 rfl),
    spec_C9_redaction.2.1 "denied".toList "org/a".toList,
    spec_C9_redaction.2.2 "git clone https://".toList "tok".toList
      "github.com/a.git".toList (by decide) (by decide) (by decide)⟩

/-- C3: `normalizeGitPath` maps a path of the shape
`prefix{old => new}suffix` (components brace-free, `old`/`new` free of
`"=>"`, `new` nonempty and trimmed, the whole path trimmed) to
`prefix + new + suffix` with duplicate path separators collapsed
(the source's single `"//"`→`"/"` pass); maps a braceless
`old => new` to `new`; and returns a path containing no `"=>"` rename
marker unchanged apart from trimming surrounding whitespace. -/
theorem spec_C3_rename_normalization :
    (∀ pfx old new sfx : Str,
      (∀ c ∈ pfx, isNonBrace c = true) → (∀ c ∈ old, isNonBrace c = true) →
      (∀ c ∈ new, isNonBrace c = true) →
      containsStr arrowStr old = false → containsStr arrowStr new = false →
      jsTrim new = new → new ≠ [] →
      jsTrim (pfx ++ '{' :: (old ++ ' ' :: '=' :: '>' :: ' ' :: new ++ '}' :: sfx)) =
        pfx ++ '{' :: (old ++ ' ' :: '=' :: '>' :: ' ' :: new ++ '}' :: sfx) →
      normalizeGitPath
          (pfx ++ '{' :: (old ++ ' ' :: '=' :: '>' :: ' ' :: new ++ '}' :: sfx)) =
        collapseDoubleSlash (pfx ++ new ++ sfx)) ∧
    (∀ old new : Str,
      containsStr arrowStr old = false → containsStr arrowStr new = false →
      (∀ c ∈ old, isNonBrace c = true) → (∀ c ∈ new, isNonBrace c = true) →
      jsTrim new = new → new ≠ [] →
      jsTrim (old ++ ' ' :: '=' :: '>' :: ' ' :: new) =
        old ++ ' ' :: '=' :: '>' :: ' ' :: new →
      normalizeGitPath (old ++ ' ' :: '=' :: '>' :: ' ' :: new) = new) ∧
    (∀ s : Str, containsStr arrowStr (jsTrim s) = false →
      normalizeGitPath s = jsTrim s) :=
  ⟨fun _ _ _ _ hpb hob hnb hoa hna htn hne hti =>
      normalizeGitPath_brace hpb hob hnb hoa hna htn hne hti,
    fun _ _ hoa hna hob hnb htn hne hti =>
      normalizeGitPath_braceless hoa hna hob hnb htn hne hti,
    fun _ h => normalizeGitPath_plain h⟩

theorem spec_C3_witness :
    normalizeGitPath
        ("src/".toList ++ '{' :: ("old".toList ++ ' ' :: '=' :: '>' :: ' ' ::
          "new".toList ++ '}' :: "/index.ts".toList)) =
      collapseDoubleSlash ("src/".toList ++ "new".toList ++ "/index.ts".toList) ∧
    normalizeGitPath ("old".toList ++ ' ' :: '=' :: '>' :: ' ' :: "new".toList) =
      "new".toList ∧
    normalizeGitPath "docs/README.md".toList = jsTrim "docs/README.md".toList :=
  ⟨spec_C3_rename_normalization.1 "src/".toList "old".toList "new".toList
      "/index.ts".toList (by decide) (by decide) (by decide) (by decide) (by decide)
      (by decide) (by decide) (by decide),
    spec_C3_rename_normalization.2.1 "old".toList "new".toList (by decide) (by decide)
      (by decide) (by decide) (by decide) (by decide) (by decide),
    spec_C3_rename_normalization.2.2 "docs/README.md".toList (by decide)⟩

/-- C6 (amended): `parseLinguistJsonToLanguageBytes` yields the entry
`language ↦ n` when the language is mapped directly to a number `n`, to
`{size: n}`, or to `{bytes: n}`, and drops entries whose value is
non-numeric (lookup characterization over unique JSON keys); single-file
classification selects a language of largest count among the parsed
entries — except that when the winning entry's language name is the empty
string the classifier result is discarded (the source's truthiness guard)
and the extension fallback is used instead, as it is when the classifier
fails or yields nothing. -/
theorem spec_C6_linguist_parsing :
    (∀ (fields : List (Str × JsValue)) (lang : Str), (fields.map Prod.fst).Nodup →
      jsLookup (parseLinguistJsonToLanguageBytes fields) lang =
        (jsLookup fields lang).bind linguistEntryValue) ∧
    (∀ (n : Int) (lang : Str) (s : Str) (b : Bool),
      linguistEntryValue (.num n) = some n ∧
      linguistEntryValue (.obj [("size".toList, .num n)]) = some n ∧
      linguistEntryValue (.obj [("bytes".toList, .num n)]) = some n ∧
      linguistEntryValue (.obj [(lang, .str s)]) = none ∧
      linguistEntryValue (.str s) = none ∧
      linguistEntryValue (.boolean b) = none ∧
      linguistEntryValue .null = none) ∧
    (∀ (m : LangMap) (L : Str), selectTopLanguage m = some L →
      L ≠ [] ∧ ∃ v, (L, v) ∈ m ∧ ∀ e ∈ m, e.2 ≤ v) ∧
    (∀ (classifier : Str → Option (List (Str × JsValue))) (filePath : Str)
      (parsed : List (Str × JsValue)),
      classifier (filePath.map (fun c => if c = '\\' then '/' else c)) = some parsed →
      selectTopLanguage (parseLinguistJsonToLanguageBytes parsed) = none →
      resolveLanguageForFile classifier filePath =
        detectLanguageFromExtension
          (filePath.map (fun c => if c = '\\' then '/' else c))) := by
  refine ⟨jsLookup_parseLinguist, ?_, fun _ _ h => selectTopLanguage_spec h, ?_⟩
  · intro n lang s b
    refine ⟨rfl, rfl, rfl, ?_, rfl, rfl, rfl⟩
    simp [linguistEntryValue, jsField]
  · intro classifier filePath parsed h1 h2
    rw [resolveLanguageForFile]
    rw [h1]
    show (match selectTopLanguage (parseLinguistJsonToLanguageBytes parsed) with
      | some language => some language
      | none => detectLanguageFromExtension
          (filePath.map (fun c => if c = '\\' then '/' else c))) =
      detectLanguageFromExtension (filePath.map (fun c => if c = '\\' then '/' else c))
    rw [h2]

theorem spec_C6_counterexample :
    parseLinguistJsonToLanguageBytes [(([] : Str), JsValue.num 5)] = [([], 5)] ∧
    selectTopLanguage [(([] : Str), (5 : Int))] = none ∧
    resolveLanguageForFile (fun _ => some [(([] : Str), JsValue.num 5)])
      "file.xyz".toList = none := by
  have hsel : selectTopLanguage [(([] : Str), (5 : Int))] = none := by
    rw [selectTopLanguage, List.mergeSort_singleton]
    rfl
  refine ⟨rfl, hsel, ?_⟩
  rw [resolveLanguageForFile]
  show (match selectTopLanguage (parseLinguistJsonToLanguageBytes
      [(([] : Str), JsValue.num 5)]) with
    | some language => some language
    | none => detectLanguageFromExtension
        ("file.xyz".toList.map (fun c => if c = '\\' then '/' else c))) = none
  rw [show parseLinguistJsonToLanguageBytes [(([] : Str), JsValue.num 5)] =
      [(([] : Str), (5 : Int))] from rfl]
  rw [hsel]
  decide

theorem spec_C6_witness :
    jsLookup (parseLinguistJsonToLanguageBytes
        [("TypeScript".toList, JsValue.num 120),
          ("JavaScript".toList, JsValue.obj [("size".toList, JsValue.num 50)]),
          ("Unknown".toList, JsValue.str "skip".toList)])
      "JavaScript".toList =
      (jsLookup [("TypeScript".toList, JsValue.num 120),
          ("JavaScript".toList, JsValue.obj [("size".toList, JsValue.num 50)]),
          ("Unknown".toList, JsValue.str "skip".toList)]
        "JavaScript".toList).bind linguistEntryValue ∧
    ("TypeScript".toList ≠ [] ∧ ∃ v, ("TypeScript".toList, v) ∈
      ([("TypeScript".toList, (7 : Int))] : LangMap) ∧
      ∀ e ∈ ([("TypeScript".toList, (7 : Int))] : LangMap), e.2 ≤ v) ∧
    resolveLanguageForFile (fun _ => some [(([] : Str), JsValue.num 5)])
      "app.rs".toList =
      detectLanguageFromExtension
        ("app.rs".toList.map (fun c => if c = '\\' then '/' else c)) :=
  ⟨spec_C6_linguist_parsing.1 _ "JavaScript".toList (by decide),
    spec_C6_linguist_parsing.2.2.1 [("TypeScript".toList, (7 : Int))]
      "TypeScript".toList
      (by rw [selectTopLanguage, List.mergeSort_singleton]; rfl),
    spec_C6_linguist_parsing.2.2.2 _ "app.rs".toList [(([] : Str), JsValue.num 5)] rfl
      (by rw [show parseLinguistJsonToLanguageBytes [(([] : Str), JsValue.num 5)] =
            [(([] : Str), (5 : Int))] from rfl,
          selectTopLanguage, List.mergeSort_singleton]; rfl)⟩

end GhStats
